import Mathlib

/-!
# Verification of the craft-agents API-interception and OAuth subsystems

Shallow embedding of the fetch-interceptor module (SSE metadata stripping,
tool-schema augmentation, history re-injection, the session-scoped tool
metadata store, the last-API-error store) and of the OAuth callback-server
logic, together with proofs of the behavioural properties stated in the
specification.

Modelling conventions:
* Byte streams are modelled as `List Char`; the real code decodes UTF-8
  with a streaming `TextDecoder`, so chunk boundaries inside a code point
  are transparent and a character-level model is faithful.
* `JSON.parse` / `JSON.stringify` are modelled by an executable JSON codec
  below.  JSON numbers are modelled as integers (every number appearing in
  the interception protocol — block indexes, HTTP statuses, timestamps —
  is integral); a data string containing a fractional number is treated as
  unparseable, which coincides with the code's pass-through behaviour.
* JavaScript objects are modelled as ordered association lists; property
  assignment updates in place or appends, matching JS insertion-order
  semantics for non-index string keys.
* File-system state is threaded explicitly; write errors are not modelled
  (the code ignores them), so "the disk write succeeded" corresponds to a
  session directory being configured.
-/

set_option maxHeartbeats 1000000

namespace Craft

/-- JSON values (JS numbers restricted to integers, see module docstring). -/
inductive Json where
  | null : Json
  | bool (b : Bool) : Json
  | num (n : Int) : Json
  | str (s : String) : Json
  | arr (elems : List Json) : Json
  | obj (fields : List (String × Json)) : Json

namespace Json

mutual

/-- Decidable equality on JSON values (the nested inductive prevents
automatic derivation). -/
def decEq : (a b : Json) → Decidable (a = b)
  | .null, .null => .isTrue rfl
  | .bool x, .bool y =>
    if h : x = y then .isTrue (h ▸ rfl)
    else .isFalse (by intro e; injection e; contradiction)
  | .num x, .num y =>
    if h : x = y then .isTrue (h ▸ rfl)
    else .isFalse (by intro e; injection e; contradiction)
  | .str x, .str y =>
    if h : x = y then .isTrue (h ▸ rfl)
    else .isFalse (by intro e; injection e; contradiction)
  | .arr xs, .arr ys =>
    match decEqList xs ys with
    | .isTrue h => .isTrue (h ▸ rfl)
    | .isFalse h => .isFalse (by intro e; injection e; contradiction)
  | .obj xs, .obj ys =>
    match decEqFields xs ys with
    | .isTrue h => .isTrue (h ▸ rfl)
    | .isFalse h => .isFalse (by intro e; injection e; contradiction)
  | .null, .bool _ => .isFalse (by intro h; exact Json.noConfusion h)
  | .null, .num _ => .isFalse (by intro h; exact Json.noConfusion h)
  | .null, .str _ => .isFalse (by intro h; exact Json.noConfusion h)
  | .null, .arr _ => .isFalse (by intro h; exact Json.noConfusion h)
  | .null, .obj _ => .isFalse (by intro h; exact Json.noConfusion h)
  | .bool _, .null => .isFalse (by intro h; exact Json.noConfusion h)
  | .bool _, .num _ => .isFalse (by intro h; exact Json.noConfusion h)
  | .bool _, .str _ => .isFalse (by intro h; exact Json.noConfusion h)
  | .bool _, .arr _ => .isFalse (by intro h; exact Json.noConfusion h)
  | .bool _, .obj _ => .isFalse (by intro h; exact Json.noConfusion h)
  | .num _, .null => .isFalse (by intro h; exact Json.noConfusion h)
  | .num _, .bool _ => .isFalse (by intro h; exact Json.noConfusion h)
  | .num _, .str _ => .isFalse (by intro h; exact Json.noConfusion h)
  | .num _, .arr _ => .isFalse (by intro h; exact Json.noConfusion h)
  | .num _, .obj _ => .isFalse (by intro h; exact Json.noConfusion h)
  | .str _, .null => .isFalse (by intro h; exact Json.noConfusion h)
  | .str _, .bool _ => .isFalse (by intro h; exact Json.noConfusion h)
  | .str _, .num _ => .isFalse (by intro h; exact Json.noConfusion h)
  | .str _, .arr _ => .isFalse (by intro h; exact Json.noConfusion h)
  | .str _, .obj _ => .isFalse (by intro h; exact Json.noConfusion h)
  | .arr _, .null => .isFalse (by intro h; exact Json.noConfusion h)
  | .arr _, .bool _ => .isFalse (by intro h; exact Json.noConfusion h)
  | .arr _, .num _ => .isFalse (by intro h; exact Json.noConfusion h)
  | .arr _, .str _ => .isFalse (by intro h; exact Json.noConfusion h)
  | .arr _, .obj _ => .isFalse (by intro h; exact Json.noConfusion h)
  | .obj _, .null => .isFalse (by intro h; exact Json.noConfusion h)
  | .obj _, .bool _ => .isFalse (by intro h; exact Json.noConfusion h)
  | .obj _, .num _ => .isFalse (by intro h; exact Json.noConfusion h)
  | .obj _, .str _ => .isFalse (by intro h; exact Json.noConfusion h)
  | .obj _, .arr _ => .isFalse (by intro h; exact Json.noConfusion h)

def decEqList : (a b : List Json) → Decidable (a = b)
  | [], [] => .isTrue rfl
  | [], _ :: _ => .isFalse (by intro h; exact List.noConfusion h)
  | _ :: _, [] => .isFalse (by intro h; exact List.noConfusion h)
  | x :: xs, y :: ys =>
    match decEq x y with
    | .isTrue h1 =>
      match decEqList xs ys with
      | .isTrue h2 => .isTrue (by rw [h1, h2])
      | .isFalse h2 => .isFalse (by intro e; injection e; contradiction)
    | .isFalse h1 => .isFalse (by intro e; injection e; contradiction)

def decEqFields : (a b : List (String × Json)) → Decidable (a = b)
  | [], [] => .isTrue rfl
  | [], _ :: _ => .isFalse (by intro h; exact List.noConfusion h)
  | _ :: _, [] => .isFalse (by intro h; exact List.noConfusion h)
  | (k, v) :: xs, (k', v') :: ys =>
    if hk : k = k' then
      match decEq v v' with
      | .isTrue h1 =>
        match decEqFields xs ys with
        | .isTrue h2 => .isTrue (by rw [hk, h1, h2])
        | .isFalse h2 => .isFalse (by
            intro e; injection e with e1 e2; contradiction)
      | .isFalse h1 => .isFalse (by
          intro e; injection e with e1 e2; injection e1; contradiction)
    else .isFalse (by
      intro e; injection e with e1 e2; injection e1; contradiction)

end

instance : DecidableEq Json := decEq

/-- JS truthiness of a JSON value (`null`, `false`, `0`, `""` are falsy). -/
def truthy : Json → Bool
  | .null => false
  | .bool b => b
  | .num n => n != 0
  | .str s => s != ""
  | .arr _ => true
  | .obj _ => true

/-- Property read `v.k`: `some` iff `v` is an object with field `k`
(mirrors JS property access returning `undefined` on a miss; access on a
non-object yields `undefined` as well — the model does not distinguish a
`TypeError` on `null` here, callers that care check shape first). -/
def getField? : Json → String → Option Json
  | .obj fields, k => fields.lookup k
  | _, _ => none

/-- Key membership in an ordered field list. -/
def hasKey (fields : List (String × Json)) (k : String) : Bool :=
  (fields.lookup k).isSome

/-- JS property assignment on an object literal's field list: update the
value in place if the key exists, otherwise append at the end (JS string
keys keep insertion order). -/
def setKey : List (String × Json) → String → Json → List (String × Json)
  | [], k, v => [(k, v)]
  | (k', v') :: rest, k, v =>
    if k' = k then (k', v) :: rest else (k', v') :: setKey rest k v

/-- JS `delete o[k]`: remove the field, keeping the order of the others. -/
def delKey : List (String × Json) → String → List (String × Json)
  | [], _ => []
  | (k', v') :: rest, k =>
    if k' = k then rest else (k', v') :: delKey rest k

end Json

/-! ## `JSON.stringify` -/

/-- Decimal digit character for `d < 10`. -/
def digitChar (d : Nat) : Char := Char.ofNat ('0'.toNat + d)

/-- Lower-case hexadecimal digit character for `d < 16`. -/
def hexChar (d : Nat) : Char :=
  if d < 10 then Char.ofNat ('0'.toNat + d) else Char.ofNat ('a'.toNat + (d - 10))

/-- Fueled helper for `natDigits` (structural recursion so that concrete
values reduce in the kernel). -/
def natDigitsAux : Nat → Nat → List Char
  | 0, _ => []
  | fuel + 1, n =>
    if n < 10 then [digitChar n]
    else natDigitsAux fuel (n / 10) ++ [digitChar (n % 10)]

/-- Decimal digit string of a natural number, most significant digit first
(the output of JS `String(n)` for naturals). -/
def natDigits (n : Nat) : List Char := natDigitsAux (n + 1) n

/-- Decimal representation of an integer, as produced by `JSON.stringify`
for integral JS numbers. -/
def intChars (n : Int) : List Char :=
  if n < 0 then '-' :: natDigits n.natAbs else natDigits n.toNat

/-- Escape of one character inside a JSON string literal, as produced by
`JSON.stringify`: `\"`, `\\`, the short control escapes, `\u00xx` for the
remaining control characters, and everything else verbatim. -/
def escapeChar (c : Char) : List Char :=
  if c = '"' then ['\\', '"']
  else if c = '\\' then ['\\', '\\']
  else if c = Char.ofNat 8 then ['\\', 'b']
  else if c = Char.ofNat 9 then ['\\', 't']
  else if c = Char.ofNat 10 then ['\\', 'n']
  else if c = Char.ofNat 12 then ['\\', 'f']
  else if c = Char.ofNat 13 then ['\\', 'r']
  else if c.toNat < 32 then
    ['\\', 'u', '0', '0', hexChar (c.toNat / 16), hexChar (c.toNat % 16)]
  else [c]

/-- Escaped body of a JSON string literal. -/
def escapeBody : List Char → List Char
  | [] => []
  | c :: cs => escapeChar c ++ escapeBody cs

/-- A full JSON string literal including the surrounding quotes. -/
def escapeString (s : String) : List Char :=
  '"' :: escapeBody s.data ++ ['"']

mutual

/-- `JSON.stringify` (no indentation, as used throughout the interceptor):
insertion-ordered object fields, no whitespace. -/
def stringify : Json → List Char
  | .null => 'n' :: 'u' :: 'l' :: 'l' :: []
  | .bool true => 't' :: 'r' :: 'u' :: 'e' :: []
  | .bool false => 'f' :: 'a' :: 'l' :: 's' :: 'e' :: []
  | .num n => intChars n
  | .str s => escapeString s
  | .arr xs => '[' :: stringifyElems xs ++ [']']
  | .obj fs => '{' :: stringifyFields fs ++ ['}']

/-- Comma-separated element list of an array. -/
def stringifyElems : List Json → List Char
  | [] => []
  | [x] => stringify x
  | x :: xs => stringify x ++ ',' :: stringifyElems xs

/-- Comma-separated `"key":value` list of an object. -/
def stringifyFields : List (String × Json) → List Char
  | [] => []
  | [(k, v)] => escapeString k ++ ':' :: stringify v
  | (k, v) :: fs => escapeString k ++ ':' :: stringify v ++ ',' :: stringifyFields fs

end

/-! ## `JSON.parse`

A fueled recursive-descent parser for the JSON grammar (numbers restricted
to integers, see the module docstring; `\uXXXX` escapes restricted to
scalar values — surrogate pairs do not occur in the data this system
handles). The fuel only bounds nesting/recursion and is instantiated with
the input length, which always suffices. -/

/-- JSON insignificant whitespace. -/
def jsonWs (c : Char) : Bool :=
  c = ' ' || c = Char.ofNat 9 || c = Char.ofNat 10 || c = Char.ofNat 13

/-- Skip insignificant whitespace. -/
def skipWs (s : List Char) : List Char := s.dropWhile jsonWs

/-- ASCII decimal digit test (code points 48–57). -/
def isDigitChar (c : Char) : Bool := 48 ≤ c.toNat && c.toNat ≤ 57

/-- Numeric value of a decimal digit character. -/
def charVal (c : Char) : Nat := c.toNat - '0'.toNat

/-- Value of a hexadecimal digit character, if it is one. -/
def hexVal? (c : Char) : Option Nat :=
  if '0' ≤ c && c ≤ '9' then some (c.toNat - 48)
  else if 'a' ≤ c && c ≤ 'f' then some (c.toNat - 87)
  else if 'A' ≤ c && c ≤ 'F' then some (c.toNat - 55)
  else none

/-- Accumulate decimal digits; stops at the first non-digit. -/
def parseDigitsAux (acc : Nat) : List Char → Nat × List Char
  | [] => (acc, [])
  | c :: cs =>
    if isDigitChar c then parseDigitsAux (acc * 10 + charVal c) cs
    else (acc, c :: cs)

/-- Parse a JSON natural-number literal (no leading zeros). -/
def parseNatNum : List Char → Option (Nat × List Char)
  | [] => none
  | c :: cs =>
    if isDigitChar c then
      if c = '0' then
        match cs with
        | [] => some (0, [])
        | c2 :: _ => if isDigitChar c2 then none else some (0, cs)
      else some (parseDigitsAux (charVal c) cs)
    else none

/-- Parse a JSON integer literal (optional minus sign). -/
def parseIntNum : List Char → Option (Int × List Char)
  | [] => none
  | c :: cs =>
    if c = '-' then (parseNatNum cs).map fun (n, r) => (-(n : Int), r)
    else (parseNatNum (c :: cs)).map fun (n, r) => ((n : Int), r)

/-- Parse one escape or raw character of a JSON string literal body. -/
def parseStringChars : List Char → Option (List Char × List Char)
  | [] => none
  | c :: rest =>
    if c = '"' then some ([], rest)
    else if c = '\\' then
      match rest with
      | [] => none
      | e :: r =>
        if e = '"' then (parseStringChars r).map fun (cs, r') => ('"' :: cs, r')
        else if e = '\\' then (parseStringChars r).map fun (cs, r') => ('\\' :: cs, r')
        else if e = '/' then (parseStringChars r).map fun (cs, r') => ('/' :: cs, r')
        else if e = 'b' then (parseStringChars r).map fun (cs, r') => (Char.ofNat 8 :: cs, r')
        else if e = 'f' then (parseStringChars r).map fun (cs, r') => (Char.ofNat 12 :: cs, r')
        else if e = 'n' then (parseStringChars r).map fun (cs, r') => (Char.ofNat 10 :: cs, r')
        else if e = 'r' then (parseStringChars r).map fun (cs, r') => (Char.ofNat 13 :: cs, r')
        else if e = 't' then (parseStringChars r).map fun (cs, r') => (Char.ofNat 9 :: cs, r')
        else if e = 'u' then
          match r with
          | h1 :: h2 :: h3 :: h4 :: r2 =>
            match hexVal? h1, hexVal? h2, hexVal? h3, hexVal? h4 with
            | some d1, some d2, some d3, some d4 =>
              let code := ((d1 * 16 + d2) * 16 + d3) * 16 + d4
              if code < 55296 then
                (parseStringChars r2).map fun (cs, r') => (Char.ofNat code :: cs, r')
              else none
            | _, _, _, _ => none
          | _ => none
        else none
    else if c.toNat < 32 then none
    else (parseStringChars rest).map fun (cs, r') => (c :: cs, r')

mutual

/-- Parse one JSON value (fueled). -/
def parseValue : Nat → List Char → Option (Json × List Char)
  | 0, _ => none
  | fuel + 1, s =>
    match skipWs s with
    | [] => none
    | c :: rest =>
      if c = '{' then
        match skipWs rest with
        | '}' :: r => some (.obj [], r)
        | s' => parseMemberList fuel s' []
      else if c = '[' then
        match skipWs rest with
        | ']' :: r => some (.arr [], r)
        | s' => parseElemList fuel s' []
      else if c = '"' then (parseStringChars rest).map fun (cs, r) => (.str ⟨cs⟩, r)
      else if c = 'n' then
        match rest with
        | 'u' :: 'l' :: 'l' :: r => some (.null, r)
        | _ => none
      else if c = 't' then
        match rest with
        | 'r' :: 'u' :: 'e' :: r => some (.bool true, r)
        | _ => none
      else if c = 'f' then
        match rest with
        | 'a' :: 'l' :: 's' :: 'e' :: r => some (.bool false, r)
        | _ => none
      else (parseIntNum (c :: rest)).map fun (n, r) => (.num n, r)

/-- Parse the elements of a non-empty array, accumulating parsed elements. -/
def parseElemList : Nat → List Char → List Json → Option (Json × List Char)
  | 0, _, _ => none
  | fuel + 1, s, acc =>
    match parseValue fuel s with
    | none => none
    | some (v, rest) =>
      match skipWs rest with
      | ',' :: rest2 => parseElemList fuel (skipWs rest2) (acc ++ [v])
      | ']' :: rest2 => some (.arr (acc ++ [v]), rest2)
      | _ => none

/-- Parse the members of a non-empty object, accumulating parsed fields.
A duplicate key overwrites the earlier value in place, as `JSON.parse`
does. -/
def parseMemberList : Nat → List Char → List (String × Json) →
    Option (Json × List Char)
  | 0, _, _ => none
  | fuel + 1, s, acc =>
    match s with
    | '"' :: rest =>
      match parseStringChars rest with
      | none => none
      | some (k, rest1) =>
        match skipWs rest1 with
        | ':' :: rest2 =>
          match parseValue fuel (skipWs rest2) with
          | none => none
          | some (v, rest3) =>
            let acc' := Json.setKey acc ⟨k⟩ v
            match skipWs rest3 with
            | ',' :: rest4 => parseMemberList fuel (skipWs rest4) acc'
            | '}' :: rest4 => some (.obj acc', rest4)
            | _ => none
        | _ => none
    | _ => none

end

/-- One-step unfolding of `parseValue` at positive fuel. -/
theorem parseValue_succ (fuel : Nat) (s : List Char) :
    parseValue (fuel + 1) s =
      match skipWs s with
      | [] => none
      | c :: rest =>
        if c = '{' then
          match skipWs rest with
          | '}' :: r => some (.obj [], r)
          | s' => parseMemberList fuel s' []
        else if c = '[' then
          match skipWs rest with
          | ']' :: r => some (.arr [], r)
          | s' => parseElemList fuel s' []
        else if c = '"' then (parseStringChars rest).map fun (cs, r) => (.str ⟨cs⟩, r)
        else if c = 'n' then
          match rest with
          | 'u' :: 'l' :: 'l' :: r => some (.null, r)
          | _ => none
        else if c = 't' then
          match rest with
          | 'r' :: 'u' :: 'e' :: r => some (.bool true, r)
          | _ => none
        else if c = 'f' then
          match rest with
          | 'a' :: 'l' :: 's' :: 'e' :: r => some (.bool false, r)
          | _ => none
        else (parseIntNum (c :: rest)).map fun (n, r) => (.num n, r) := by
  rw [parseValue.eq_def]

/-- One-step unfolding of `parseElemList` at positive fuel. -/
theorem parseElemList_succ (fuel : Nat) (s : List Char) (acc : List Json) :
    parseElemList (fuel + 1) s acc =
      match parseValue fuel s with
      | none => none
      | some (v, rest) =>
        match skipWs rest with
        | ',' :: rest2 => parseElemList fuel (skipWs rest2) (acc ++ [v])
        | ']' :: rest2 => some (.arr (acc ++ [v]), rest2)
        | _ => none := by
  rw [parseElemList.eq_def]

/-- One-step unfolding of `parseMemberList` at positive fuel. -/
theorem parseMemberList_succ (fuel : Nat) (s : List Char)
    (acc : List (String × Json)) :
    parseMemberList (fuel + 1) s acc =
      match s with
      | '"' :: rest =>
        match parseStringChars rest with
        | none => none
        | some (k, rest1) =>
          match skipWs rest1 with
          | ':' :: rest2 =>
            match parseValue fuel (skipWs rest2) with
            | none => none
            | some (v, rest3) =>
              let acc' := Json.setKey acc ⟨k⟩ v
              match skipWs rest3 with
              | ',' :: rest4 => parseMemberList fuel (skipWs rest4) acc'
              | '}' :: rest4 => some (.obj acc', rest4)
              | _ => none
          | _ => none
      | _ => none := by
  rw [parseMemberList.eq_def]

/-- `JSON.parse`: parse a complete JSON document (only insignificant
whitespace may follow the value). -/
def parseJson (s : List Char) : Option Json :=
  match parseValue (s.length + 1) s with
  | some (v, rest) => if skipWs rest = [] then some v else none
  | none => none

example : parseJson "\x7b\"foo\":\"bar\",\"_intent\":\"x\"\x7d".data =
    some (.obj [("foo", .str "bar"), ("_intent", .str "x")]) := by decide

example : parseJson "[1,-20,true,null]".data =
    some (.arr [.num 1, .num (-20), .bool true, .null]) := by decide

example : parseJson "01".data = none := by decide

example : stringify (.obj [("foo", .str "bar"), ("n", .num (-7))]) =
    "\x7b\"foo\":\"bar\",\"n\":-7\x7d".data := by decide

/-! ## Round-trip: `parseJson (stringify v) = some v`

The metadata store and the error store persist values through
`JSON.stringify` and read them back through `JSON.parse`; the cross-process
claims need the codec round-trip, proved here for well-formed values
(objects with distinct keys — the only shape either store ever writes). -/

/-- A list does not start with a decimal digit (so it cannot extend a
preceding number literal). -/
def sepHead : List Char → Bool
  | [] => true
  | c :: _ => !isDigitChar c

theorem charValid_nat (c : Char) : Char.isValidCharNat c.toNat := by
  rcases c.valid with h | ⟨h1, h2⟩
  · exact Or.inl (by exact_mod_cast h)
  · exact Or.inr ⟨by exact_mod_cast h1, by exact_mod_cast h2⟩

theorem charOfNat_toNat (c : Char) : Char.ofNat c.toNat = c := by
  have hv : c.toNat.isValidChar := charValid_nat c
  rw [Char.ofNat, dif_pos hv]
  apply Char.eq_of_val_eq
  apply UInt32.eq_of_toBitVec_eq
  simp only [Char.ofNatAux]
  apply BitVec.eq_of_toNat_eq
  rfl

theorem char_toNat_inj {c c' : Char} (h : c = c') : c.toNat = c'.toNat := by rw [h]

theorem skipWs_cons {c : Char} (t : List Char) (h : jsonWs c = false) :
    skipWs (c :: t) = c :: t := by
  simp [skipWs, List.dropWhile, h]

theorem digitChar_toNat {d : Nat} (h : d < 10) : (digitChar d).toNat = 48 + d := by
  interval_cases d <;> decide

theorem isDigitChar_digitChar {d : Nat} (h : d < 10) :
    isDigitChar (digitChar d) = true := by
  simp [isDigitChar, digitChar_toNat h]; omega

theorem charVal_digitChar {d : Nat} (h : d < 10) : charVal (digitChar d) = d := by
  have := digitChar_toNat h
  simp [charVal, this]

theorem digitChar_ne_zero {d : Nat} (h : d < 10) (hd : d ≠ 0) :
    digitChar d ≠ '0' := by
  intro e
  have := char_toNat_inj e
  rw [digitChar_toNat h] at this
  simp at this
  omega

theorem natDigitsAux_fuel_eq (n : Nat) : ∀ f1 f2, n < f1 → n < f2 →
    natDigitsAux f1 n = natDigitsAux f2 n := by
  induction n using Nat.strong_induction_on with
  | _ n ih =>
    intro f1 f2 h1 h2
    match f1, f2 with
    | g1 + 1, g2 + 1 =>
      simp only [natDigitsAux]
      by_cases h : n < 10
      · simp [h]
      · simp only [if_neg h]
        have hdiv : n / 10 < n := Nat.div_lt_self (by omega) (by omega)
        rw [ih (n / 10) hdiv g1 g2 (by omega) (by omega)]

theorem natDigits_eq (n : Nat) : natDigits n =
    if n < 10 then [digitChar n]
    else natDigits (n / 10) ++ [digitChar (n % 10)] := by
  show natDigitsAux (n + 1) n = _
  simp only [natDigitsAux]
  by_cases h : n < 10
  · simp [h]
  · simp only [if_neg h]
    have hdiv : n / 10 < n := Nat.div_lt_self (by omega) (by omega)
    rw [natDigitsAux_fuel_eq (n / 10) n (n / 10 + 1) (by omega) (by omega)]
    rfl

theorem natDigits_ne_nil (n : Nat) : natDigits n ≠ [] := by
  rw [natDigits_eq]
  split <;> simp

theorem natDigits_head_digit (n : Nat) : ∀ c cs, natDigits n = c :: cs →
    isDigitChar c = true := by
  induction n using Nat.strong_induction_on with
  | _ n ih =>
    intro c cs h
    rw [natDigits_eq] at h
    by_cases h10 : n < 10
    · rw [if_pos h10] at h
      obtain ⟨rfl, -⟩ := List.cons.inj h
      exact isDigitChar_digitChar h10
    · rw [if_neg h10] at h
      have hdiv : n / 10 < n := Nat.div_lt_self (by omega) (by omega)
      cases hrec : natDigits (n / 10) with
      | nil => exact absurd hrec (natDigits_ne_nil _)
      | cons c0 cs0 =>
        rw [hrec] at h
        obtain ⟨rfl, -⟩ := List.cons.inj h
        exact ih (n / 10) hdiv c0 cs0 hrec

theorem natDigits_head_ne_zero (n : Nat) : n ≠ 0 → ∀ c cs,
    natDigits n = c :: cs → c ≠ '0' := by
  induction n using Nat.strong_induction_on with
  | _ n ih =>
    intro hn c cs h
    rw [natDigits_eq] at h
    by_cases h10 : n < 10
    · rw [if_pos h10] at h
      obtain ⟨rfl, -⟩ := List.cons.inj h
      exact digitChar_ne_zero h10 hn
    · rw [if_neg h10] at h
      have hdiv : n / 10 < n := Nat.div_lt_self (by omega) (by omega)
      cases hrec : natDigits (n / 10) with
      | nil => exact absurd hrec (natDigits_ne_nil _)
      | cons c0 cs0 =>
        rw [hrec] at h
        obtain ⟨rfl, -⟩ := List.cons.inj h
        exact ih (n / 10) hdiv (by omega) c0 cs0 hrec

theorem parseDigitsAux_stop (acc : Nat) (rest : List Char)
    (h : sepHead rest = true) : parseDigitsAux acc rest = (acc, rest) := by
  cases rest with
  | nil => rfl
  | cons c cs =>
    simp only [sepHead, Bool.not_eq_true'] at h
    simp [parseDigitsAux, h]

theorem parseDigitsAux_digits (n : Nat) : ∀ acc rest,
    parseDigitsAux acc (natDigits n ++ rest) =
      parseDigitsAux (acc * 10 ^ (natDigits n).length + n) rest := by
  induction n using Nat.strong_induction_on with
  | _ n ih =>
    intro acc rest
    rw [natDigits_eq]
    by_cases h10 : n < 10
    · rw [if_pos h10]
      have h1 : parseDigitsAux acc ([digitChar n] ++ rest) =
          parseDigitsAux (acc * 10 + n) rest := by
        simp [parseDigitsAux, isDigitChar_digitChar h10, charVal_digitChar h10]
      rw [h1]
      norm_num
    · rw [if_neg h10]
      have hdiv : n / 10 < n := Nat.div_lt_self (by omega) (by omega)
      rw [List.append_assoc, ih (n / 10) hdiv]
      have hd : n % 10 < 10 := Nat.mod_lt _ (by omega)
      have h1 : parseDigitsAux (acc * 10 ^ (natDigits (n / 10)).length + n / 10)
          ([digitChar (n % 10)] ++ rest) =
          parseDigitsAux ((acc * 10 ^ (natDigits (n / 10)).length + n / 10) * 10
            + n % 10) rest := by
        simp [parseDigitsAux, isDigitChar_digitChar hd, charVal_digitChar hd]
      rw [h1]
      have h2 : (acc * 10 ^ (natDigits (n / 10)).length + n / 10) * 10 + n % 10 =
          acc * 10 ^ ((natDigits (n / 10)).length + 1) + n := by
        have h3 : n / 10 * 10 + n % 10 = n := by omega
        calc (acc * 10 ^ (natDigits (n / 10)).length + n / 10) * 10 + n % 10
            = acc * (10 ^ (natDigits (n / 10)).length * 10)
              + (n / 10 * 10 + n % 10) := by ring
          _ = acc * 10 ^ ((natDigits (n / 10)).length + 1) + n := by
              rw [h3, pow_succ]
      rw [h2]
      simp

theorem parseNatNum_roundtrip (n : Nat) (rest : List Char)
    (h : sepHead rest = true) :
    parseNatNum (natDigits n ++ rest) = some (n, rest) := by
  by_cases hn : n = 0
  · subst hn
    have h0 : natDigits 0 = ['0'] := by rw [natDigits_eq]; decide
    rw [h0]
    cases rest with
    | nil => rfl
    | cons c2 cs =>
      simp only [sepHead, Bool.not_eq_true'] at h
      simp [parseNatNum, h]
      decide
  · cases hcons : natDigits n with
    | nil => exact absurd hcons (natDigits_ne_nil _)
    | cons c cs =>
      have hdig := natDigits_head_digit n c cs hcons
      have hne0 := natDigits_head_ne_zero n hn c cs hcons
      have hmain : parseDigitsAux 0 (natDigits n ++ rest) = (n, rest) := by
        rw [parseDigitsAux_digits, parseDigitsAux_stop _ _ h]
        simp
      rw [hcons, List.cons_append] at hmain
      simp only [parseDigitsAux, hdig, if_true, Nat.zero_mul, Nat.zero_add]
        at hmain
      show parseNatNum (c :: (cs ++ rest)) = some (n, rest)
      simp only [parseNatNum, hdig, if_true, if_neg hne0, hmain]

theorem intChars_head_not_ws (n : Int) : ∃ c t, intChars n = c :: t ∧
    jsonWs c = false ∧ c ≠ ']' ∧ c ≠ '}' ∧ c ≠ '{' ∧ c ≠ '[' ∧ c ≠ '"' ∧
    c ≠ 'n' ∧ c ≠ 't' ∧ c ≠ 'f' := by
  have digitFacts : ∀ m : Nat, ∀ c cs, natDigits m = c :: cs →
      jsonWs c = false ∧ c ≠ ']' ∧ c ≠ '}' ∧ c ≠ '{' ∧ c ≠ '[' ∧ c ≠ '"' ∧
      c ≠ 'n' ∧ c ≠ 't' ∧ c ≠ 'f' := by
    intro m c cs hc
    have hd := natDigits_head_digit m c cs hc
    simp only [isDigitChar, Bool.and_eq_true, decide_eq_true_eq] at hd
    refine ⟨?_, ?_, ?_, ?_, ?_, ?_, ?_, ?_, ?_⟩
    · simp only [jsonWs]
      have h32 : c ≠ ' ' := fun e => by have := char_toNat_inj e; simp at this; omega
      have h9 : c ≠ Char.ofNat 9 := fun e => by have := char_toNat_inj e; simp at this; omega
      have h10 : c ≠ Char.ofNat 10 := fun e => by have := char_toNat_inj e; simp at this; omega
      have h13 : c ≠ Char.ofNat 13 := fun e => by have := char_toNat_inj e; simp at this; omega
      simp [h32, h9, h10, h13]
    all_goals exact fun e => by have := char_toNat_inj e; simp at this; omega
  unfold intChars
  by_cases hn : n < 0
  · rw [if_pos hn]
    exact ⟨'-', _, rfl, by decide, by decide, by decide, by decide, by decide,
      by decide, by decide, by decide, by decide⟩
  · rw [if_neg hn]
    cases hc : natDigits n.toNat with
    | nil => exact absurd hc (natDigits_ne_nil _)
    | cons c cs =>
      obtain ⟨w, x1, x2, x3, x4, x5, x6, x7, x8⟩ := digitFacts _ _ _ hc
      exact ⟨c, cs, rfl, w, x1, x2, x3, x4, x5, x6, x7, x8⟩

theorem parseIntNum_roundtrip (n : Int) (rest : List Char)
    (h : sepHead rest = true) :
    parseIntNum (intChars n ++ rest) = some (n, rest) := by
  unfold intChars
  by_cases hn : n < 0
  · rw [if_pos hn, List.cons_append]
    show (parseNatNum (natDigits n.natAbs ++ rest)).map
        (fun (m, r) => (-(m : Int), r)) = some (n, rest)
    rw [parseNatNum_roundtrip _ _ h, Option.map_some']
    have habs : -((n.natAbs : Int)) = n := by omega
    show some (-((n.natAbs : Int)), rest) = some (n, rest)
    rw [habs]
  · rw [if_neg hn]
    cases hc : natDigits n.toNat with
    | nil => exact absurd hc (natDigits_ne_nil _)
    | cons c cs =>
      have hdig := natDigits_head_digit n.toNat c cs hc
      have hminus : c ≠ '-' := by
        simp only [isDigitChar, Bool.and_eq_true, decide_eq_true_eq] at hdig
        exact fun e => by have := char_toNat_inj e; simp at this; omega
      show parseIntNum (c :: (cs ++ rest)) = some (n, rest)
      simp only [parseIntNum, if_neg hminus]
      rw [← List.cons_append, ← hc, parseNatNum_roundtrip _ _ h,
        Option.map_some']
      have hcast : ((n.toNat : Int)) = n := by omega
      rw [hcast]

theorem hexVal_hexChar {d : Nat} (h : d < 16) : hexVal? (hexChar d) = some d := by
  interval_cases d <;> decide

theorem parseStringChars_roundtrip (cs : List Char) : ∀ rest,
    parseStringChars (escapeBody cs ++ '"' :: rest) = some (cs, rest) := by
  induction cs with
  | nil =>
    intro rest
    show parseStringChars ('"' :: rest) = some ([], rest)
    rw [parseStringChars.eq_def]
    simp
  | cons c cs ih =>
    intro rest
    show parseStringChars ((escapeChar c ++ escapeBody cs) ++ '"' :: rest) =
      some (c :: cs, rest)
    rw [List.append_assoc]
    by_cases h1 : c = '"'
    · subst h1
      rw [show escapeChar '"' = ['\\', '"'] from by decide]
      simp only [List.cons_append, List.nil_append]
      rw [parseStringChars.eq_def]
      simp [ih]
    by_cases h2 : c = '\\'
    · subst h2
      rw [show escapeChar '\\' = ['\\', '\\'] from by decide]
      simp only [List.cons_append, List.nil_append]
      rw [parseStringChars.eq_def]
      simp [ih]
    by_cases h3 : c = Char.ofNat 8
    · subst h3
      rw [show escapeChar (Char.ofNat 8) = ['\\', 'b'] from by decide]
      simp only [List.cons_append, List.nil_append]
      rw [parseStringChars.eq_def]
      simp [ih]
    by_cases h4 : c = Char.ofNat 9
    · subst h4
      rw [show escapeChar (Char.ofNat 9) = ['\\', 't'] from by decide]
      simp only [List.cons_append, List.nil_append]
      rw [parseStringChars.eq_def]
      simp [ih]
    by_cases h5 : c = Char.ofNat 10
    · subst h5
      rw [show escapeChar (Char.ofNat 10) = ['\\', 'n'] from by decide]
      simp only [List.cons_append, List.nil_append]
      rw [parseStringChars.eq_def]
      simp [ih]
    by_cases h6 : c = Char.ofNat 12
    · subst h6
      rw [show escapeChar (Char.ofNat 12) = ['\\', 'f'] from by decide]
      simp only [List.cons_append, List.nil_append]
      rw [parseStringChars.eq_def]
      simp [ih]
    by_cases h7 : c = Char.ofNat 13
    · subst h7
      rw [show escapeChar (Char.ofNat 13) = ['\\', 'r'] from by decide]
      simp only [List.cons_append, List.nil_append]
      rw [parseStringChars.eq_def]
      simp [ih]
    by_cases h8 : c.toNat < 32
    · have ha : c.toNat / 16 < 16 := by omega
      have hb : c.toNat % 16 < 16 := by omega
      have he : escapeChar c = ['\\', 'u', '0', '0', hexChar (c.toNat / 16),
          hexChar (c.toNat % 16)] := by
        unfold escapeChar
        rw [if_neg h1, if_neg h2, if_neg h3, if_neg h4, if_neg h5, if_neg h6,
          if_neg h7, if_pos h8]
      rw [he]
      simp only [List.cons_append, List.nil_append]
      rw [parseStringChars.eq_def]
      have hco : c.toNat / 16 * 16 + c.toNat % 16 = c.toNat := by omega
      simp [hexVal_hexChar ha, hexVal_hexChar hb,
        show hexVal? '0' = some 0 from by decide, hco,
        show c.toNat < 55296 from by omega, charOfNat_toNat, ih]
    · have he : escapeChar c = [c] := by
        unfold escapeChar
        rw [if_neg h1, if_neg h2, if_neg h3, if_neg h4, if_neg h5, if_neg h6,
          if_neg h7, if_neg h8]
      rw [he]
      simp only [List.cons_append, List.nil_append]
      rw [parseStringChars.eq_def]
      simp [h1, h2, h8, ih]


/-! ### Size and well-formedness of JSON values -/

mutual

/-- Fuel bound for parsing a value (counts nesting and list elements). -/
def jsize : Json → Nat
  | .null => 1
  | .bool _ => 1
  | .num _ => 1
  | .str _ => 1
  | .arr xs => 1 + jsizeList xs
  | .obj fs => 1 + jsizeFields fs

def jsizeList : List Json → Nat
  | [] => 0
  | x :: xs => 1 + jsize x + jsizeList xs

def jsizeFields : List (String × Json) → Nat
  | [] => 0
  | (_, v) :: fs => 1 + jsize v + jsizeFields fs

end

/-- No key occurs twice in an object's field list. -/
def keysUnique : List (String × Json) → Bool
  | [] => true
  | (k, _) :: fs => !(Json.hasKey fs k) && keysUnique fs

mutual

/-- Well-formed JSON values: every object has pairwise-distinct keys (the
only shape `JSON.stringify` of a parsed or freshly-built JS object can
have). -/
def wfB : Json → Bool
  | .null => true
  | .bool _ => true
  | .num _ => true
  | .str _ => true
  | .arr xs => wfBList xs
  | .obj fs => keysUnique fs && wfBFields fs

def wfBList : List Json → Bool
  | [] => true
  | x :: xs => wfB x && wfBList xs

def wfBFields : List (String × Json) → Bool
  | [] => true
  | (_, v) :: fs => wfB v && wfBFields fs

end

theorem jsize_pos (v : Json) : 1 ≤ jsize v := by
  cases v <;> simp [jsize]

theorem jsizeList_pos {xs : List Json} (h : xs ≠ []) : 1 ≤ jsizeList xs := by
  cases xs with
  | nil => exact absurd rfl h
  | cons x xs => simp only [jsizeList]; omega

theorem jsizeFields_pos {fs : List (String × Json)} (h : fs ≠ []) :
    1 ≤ jsizeFields fs := by
  cases fs with
  | nil => exact absurd rfl h
  | cons f fs =>
    obtain ⟨k, v⟩ := f
    simp only [jsizeFields]; omega

theorem hasKey_append_mid (l1 : List (String × Json)) (k : String) (v : Json)
    (l2 : List (String × Json)) : Json.hasKey (l1 ++ (k, v) :: l2) k = true := by
  induction l1 with
  | nil => simp [Json.hasKey, List.lookup]
  | cons p t ih =>
    obtain ⟨k0, v0⟩ := p
    simp only [List.cons_append, Json.hasKey, List.lookup]
    by_cases hk : (k == k0) = true
    · simp [hk]
    · simp only [Bool.not_eq_true] at hk
      simp only [hk]
      exact ih

theorem keysUnique_extract : ∀ (l1 : List (String × Json)) (k : String)
    (v : Json) (l2 : List (String × Json)),
    keysUnique (l1 ++ (k, v) :: l2) = true → Json.hasKey l1 k = false := by
  intro l1 k v l2
  induction l1 with
  | nil => intro _; rfl
  | cons p t ih =>
    obtain ⟨k0, v0⟩ := p
    intro h
    simp only [List.cons_append, keysUnique, Bool.and_eq_true,
      Bool.not_eq_true'] at h
    obtain ⟨hnk, hrest⟩ := h
    simp only [Json.hasKey, List.lookup]
    by_cases hk : (k == k0) = true
    · exfalso
      have hkeq : k = k0 := by
        exact eq_of_beq hk
      subst hkeq
      have hnk2 : Json.hasKey (t ++ (k, v) :: l2) k = false := hnk
      rw [hasKey_append_mid] at hnk2
      exact absurd hnk2 (by decide)
    · simp only [Bool.not_eq_true] at hk
      simp only [hk]
      exact ih hrest

theorem setKey_fresh : ∀ (l : List (String × Json)) (k : String) (v : Json),
    Json.hasKey l k = false → Json.setKey l k v = l ++ [(k, v)] := by
  intro l k v
  induction l with
  | nil => intro _; rfl
  | cons p t ih =>
    obtain ⟨k0, v0⟩ := p
    intro h
    simp only [Json.hasKey, List.lookup] at h
    by_cases hk : (k == k0) = true
    · simp [hk] at h
    · simp only [Bool.not_eq_true] at hk
      simp only [hk] at h
      have hne : k0 ≠ k := by
        intro e
        subst e
        simp at hk
      simp only [Json.setKey, if_neg hne, List.cons_append]
      rw [ih h]

/-- The first character of any serialized value: never whitespace and never
a closing delimiter, so the parser's lookahead routing is unambiguous. -/
theorem stringify_cons (v : Json) : ∃ c t, stringify v = c :: t ∧
    jsonWs c = false ∧ c ≠ ']' ∧ c ≠ '}' := by
  cases v with
  | null => exact ⟨'n', _, by rw [stringify], by decide, by decide, by decide⟩
  | bool b =>
    cases b with
    | true => exact ⟨'t', _, by rw [stringify], by decide, by decide, by decide⟩
    | false => exact ⟨'f', _, by rw [stringify], by decide, by decide, by decide⟩
  | num n =>
    obtain ⟨c, t, hct, hws, hrb, hcb, -⟩ := intChars_head_not_ws n
    exact ⟨c, t, by rw [stringify]; exact hct, hws, hrb, hcb⟩
  | str s =>
    exact ⟨'"', _, by rw [stringify]; rfl, by decide, by decide, by decide⟩
  | arr xs =>
    exact ⟨'[', stringifyElems xs ++ [']'],
      by rw [stringify, List.cons_append], by decide, by decide, by decide⟩
  | obj fs =>
    exact ⟨'{', stringifyFields fs ++ ['}'],
      by rw [stringify, List.cons_append], by decide, by decide, by decide⟩

theorem sepHead_cons {c : Char} (u : List Char) (h : isDigitChar c = false) :
    sepHead (c :: u) = true := by simp [sepHead, h]

theorem escapeString_cons (k : String) (x : List Char) :
    escapeString k ++ x = '"' :: (escapeBody k.data ++ ('"' :: x)) := by
  simp [escapeString, List.cons_append, List.append_assoc]

theorem stringifyElems_head (x : Json) (xs : List Json) : ∃ c u,
    stringifyElems (x :: xs) = c :: u ∧ jsonWs c = false ∧ c ≠ ']' ∧
    c ≠ '}' := by
  obtain ⟨c, t, hct, hws, hrb, hcb⟩ := stringify_cons x
  cases xs with
  | nil => exact ⟨c, t, by rw [stringifyElems]; exact hct, hws, hrb, hcb⟩
  | cons y ys =>
    refine ⟨c, t ++ (',' :: stringifyElems (y :: ys)), ?_, hws, hrb, hcb⟩
    rw [show stringifyElems (x :: y :: ys) =
      stringify x ++ ',' :: stringifyElems (y :: ys) from by
        simp [stringifyElems]]
    rw [hct, List.cons_append]

theorem stringifyFields_head (f : String × Json) (fs : List (String × Json)) :
    ∃ u, stringifyFields (f :: fs) = '"' :: u := by
  obtain ⟨k, v⟩ := f
  cases fs with
  | nil =>
    refine ⟨escapeBody k.data ++ ('"' :: (':' :: stringify v)), ?_⟩
    rw [stringifyFields, escapeString_cons]
  | cons g gs =>
    refine ⟨escapeBody k.data ++ ('"' :: (':' :: stringify v ++
      ',' :: stringifyFields (g :: gs))), ?_⟩
    rw [show stringifyFields ((k, v) :: g :: gs) =
      (escapeString k ++ ':' :: stringify v) ++
        ',' :: stringifyFields (g :: gs) from by simp [stringifyFields]]
    rw [List.append_assoc, escapeString_cons, List.cons_append]

theorem parse_stringify_master : ∀ fuel : Nat,
    (∀ v rest, wfB v = true → jsize v ≤ fuel → sepHead rest = true →
      parseValue fuel (stringify v ++ rest) = some (v, rest)) ∧
    (∀ xs acc rest, xs ≠ [] → wfBList xs = true → jsizeList xs ≤ fuel →
      parseElemList fuel (stringifyElems xs ++ ']' :: rest) acc =
        some (.arr (acc ++ xs), rest)) ∧
    (∀ fs acc rest, fs ≠ [] → wfBFields fs = true →
      keysUnique (acc ++ fs) = true → jsizeFields fs ≤ fuel →
      parseMemberList fuel (stringifyFields fs ++ '}' :: rest) acc =
        some (.obj (acc ++ fs), rest)) := by
  intro fuel
  induction fuel with
  | zero =>
    refine ⟨?_, ?_, ?_⟩
    · intro v rest hwf hsz hsep
      exact absurd hsz (by have := jsize_pos v; omega)
    · intro xs acc rest hne hwf hsz
      exact absurd hsz (by have := jsizeList_pos hne; omega)
    · intro fs acc rest hne hwf hku hsz
      exact absurd hsz (by have := jsizeFields_pos hne; omega)
  | succ fuel ih =>
    obtain ⟨ih1, ih2, ih3⟩ := ih
    refine ⟨?_, ?_, ?_⟩
    · intro v rest hwf hsz hsep
      cases v with
      | null =>
        rw [show stringify .null = 'n' :: 'u' :: 'l' :: 'l' :: [] from
          by rw [stringify]]
        simp only [List.cons_append, List.nil_append]
        rw [parseValue.eq_def]
        simp [skipWs_cons _ (by decide : jsonWs 'n' = false)]
      | bool b =>
        cases b with
        | true =>
          rw [show stringify (.bool true) = 't' :: 'r' :: 'u' :: 'e' :: [] from
            by rw [stringify]]
          simp only [List.cons_append, List.nil_append]
          rw [parseValue.eq_def]
          simp [skipWs_cons _ (by decide : jsonWs 't' = false)]
        | false =>
          rw [show stringify (.bool false) =
            'f' :: 'a' :: 'l' :: 's' :: 'e' :: [] from by rw [stringify]]
          simp only [List.cons_append, List.nil_append]
          rw [parseValue.eq_def]
          simp [skipWs_cons _ (by decide : jsonWs 'f' = false)]
      | num n =>
        rw [show stringify (.num n) = intChars n from by rw [stringify]]
        obtain ⟨c, t, hct, hws, hrb, hcb, hlb, hlsq, hq, hn, ht, hf⟩ :=
          intChars_head_not_ws n
        rw [hct, List.cons_append, parseValue.eq_def]
        simp only [skipWs_cons _ hws, hlb, hlsq, hq, hn, ht, hf, if_false]
        rw [← List.cons_append, ← hct, parseIntNum_roundtrip n rest hsep]
        rfl
      | str s =>
        rw [show stringify (.str s) = escapeString s from by rw [stringify]]
        rw [escapeString_cons s rest, parseValue.eq_def]
        simp [skipWs_cons _ (by decide : jsonWs '"' = false),
          parseStringChars_roundtrip]
      | arr xs =>
        rw [show stringify (.arr xs) = ('[' :: stringifyElems xs) ++ [']'] from
          by rw [stringify]]
        have hshape : (('[' :: stringifyElems xs) ++ [']']) ++ rest =
            '[' :: (stringifyElems xs ++ (']' :: rest)) := by
          simp [List.cons_append, List.append_assoc]
        rw [hshape, parseValue.eq_def]
        cases xs with
        | nil =>
          rw [show stringifyElems [] = [] from by rw [stringifyElems],
            List.nil_append]
          simp [skipWs_cons _ (by decide : jsonWs '[' = false),
            skipWs_cons _ (by decide : jsonWs ']' = false)]
        | cons x xs =>
          obtain ⟨c0, u0, hc0, hws0, hrb0, hcb0⟩ := stringifyElems_head x xs
          rw [hc0, List.cons_append]
          simp only [wfB] at hwf
          simp only [jsize] at hsz
          have hstep := ih2 (x :: xs) [] rest (by simp) hwf (by omega)
          rw [hc0, List.cons_append] at hstep
          simp only [List.nil_append] at hstep
          simp [skipWs_cons _ (by decide : jsonWs '[' = false),
            skipWs_cons _ hws0]
          split
          · rename_i r heq
            obtain ⟨h1, -⟩ := List.cons.inj heq
            exact absurd h1 hrb0
          · rw [hstep]
      | obj fs =>
        rw [show stringify (.obj fs) = ('{' :: stringifyFields fs) ++ ['}'] from
          by rw [stringify]]
        have hshape : (('{' :: stringifyFields fs) ++ ['}']) ++ rest =
            '{' :: (stringifyFields fs ++ ('}' :: rest)) := by
          simp [List.cons_append, List.append_assoc]
        rw [hshape, parseValue.eq_def]
        cases fs with
        | nil =>
          rw [show stringifyFields [] = [] from by rw [stringifyFields],
            List.nil_append]
          simp [skipWs_cons _ (by decide : jsonWs '{' = false),
            skipWs_cons _ (by decide : jsonWs '}' = false)]
        | cons f fs =>
          obtain ⟨u, hu⟩ := stringifyFields_head f fs
          rw [hu, List.cons_append]
          simp only [wfB, Bool.and_eq_true] at hwf
          simp only [jsize] at hsz
          have hstep := ih3 (f :: fs) [] rest (by simp) hwf.2
            (by simpa using hwf.1) (by omega)
          rw [hu, List.cons_append] at hstep
          simp only [List.nil_append] at hstep
          simp [skipWs_cons _ (by decide : jsonWs '{' = false),
            skipWs_cons _ (by decide : jsonWs '"' = false)]
          exact hstep
    · intro xs acc rest hne hwf hsz
      cases xs with
      | nil => exact absurd rfl hne
      | cons x xs =>
        simp only [wfBList, Bool.and_eq_true] at hwf
        simp only [jsizeList] at hsz
        cases xs with
        | nil =>
          rw [show stringifyElems [x] = stringify x from by rw [stringifyElems]]
          rw [parseElemList.eq_def]
          have hv := ih1 x (']' :: rest) hwf.1 (by omega)
            (sepHead_cons _ (by decide))
          simp [hv, skipWs_cons _ (by decide : jsonWs ']' = false)]
        | cons y ys =>
          rw [show stringifyElems (x :: y :: ys) =
            stringify x ++ ',' :: stringifyElems (y :: ys) from
            by simp [stringifyElems]]
          have hshape : (stringify x ++ ',' :: stringifyElems (y :: ys)) ++
              ']' :: rest =
              stringify x ++ (',' :: (stringifyElems (y :: ys) ++ ']' :: rest)) := by
            simp [List.append_assoc]
          rw [hshape, parseElemList.eq_def]
          have hv := ih1 x (',' :: (stringifyElems (y :: ys) ++ ']' :: rest))
            hwf.1 (by omega) (sepHead_cons _ (by decide))
          obtain ⟨c1, u1, hc1, hws1, hrb1, hcb1⟩ := stringifyElems_head y ys
          rw [hc1, List.cons_append] at hv
          have hstep := ih2 (y :: ys) (acc ++ [x]) rest (by simp) hwf.2
            (by omega)
          rw [hc1, List.cons_append] at hstep
          simp [hv, skipWs_cons _ (by decide : jsonWs ',' = false), hc1,
            List.cons_append, skipWs_cons _ hws1, hstep, List.append_assoc]
    · intro fs acc rest hne hwf hku hsz
      cases fs with
      | nil => exact absurd rfl hne
      | cons f fs =>
        obtain ⟨k, v⟩ := f
        simp only [wfBFields, Bool.and_eq_true] at hwf
        simp only [jsizeFields] at hsz
        have hfresh : Json.hasKey acc k = false :=
          keysUnique_extract acc k v fs hku
        have hmk : (⟨k.data⟩ : String) = k := rfl
        cases fs with
        | nil =>
          rw [show stringifyFields [(k, v)] = escapeString k ++
            ':' :: stringify v from by rw [stringifyFields]]
          have hshape : (escapeString k ++ ':' :: stringify v) ++ '}' :: rest =
              '"' :: (escapeBody k.data ++ ('"' ::
                (':' :: (stringify v ++ '}' :: rest)))) := by
            rw [List.append_assoc, escapeString_cons]
            simp [List.append_assoc]
          rw [hshape, parseMemberList.eq_def]
          obtain ⟨c2, u2, hc2, hws2, hrb2, hcb2⟩ := stringify_cons v
          have hv := ih1 v ('}' :: rest) hwf.1 (by omega)
            (sepHead_cons _ (by decide))
          rw [hc2, List.cons_append] at hv
          simp [parseStringChars_roundtrip k.data,
            skipWs_cons _ (by decide : jsonWs ':' = false), hc2,
            List.cons_append, skipWs_cons _ hws2, hv, hmk,
            setKey_fresh acc k v hfresh,
            skipWs_cons _ (by decide : jsonWs '}' = false)]
        | cons g gs =>
          rw [show stringifyFields ((k, v) :: g :: gs) =
            (escapeString k ++ ':' :: stringify v) ++
              ',' :: stringifyFields (g :: gs) from by simp [stringifyFields]]
          have hshape : ((escapeString k ++ ':' :: stringify v) ++
              ',' :: stringifyFields (g :: gs)) ++ '}' :: rest =
              '"' :: (escapeBody k.data ++ ('"' ::
                (':' :: (stringify v ++
                  (',' :: (stringifyFields (g :: gs) ++ '}' :: rest)))))) := by
            rw [List.append_assoc, List.append_assoc, escapeString_cons]
            simp [List.append_assoc]
          rw [hshape, parseMemberList.eq_def]
          obtain ⟨c2, u2, hc2, hws2, hrb2, hcb2⟩ := stringify_cons v
          have hv := ih1 v (',' :: (stringifyFields (g :: gs) ++ '}' :: rest))
            hwf.1 (by omega) (sepHead_cons _ (by decide))
          rw [hc2, List.cons_append] at hv
          obtain ⟨u3, hu3⟩ := stringifyFields_head g gs
          rw [hu3, List.cons_append] at hv
          have hku2 : keysUnique ((acc ++ [(k, v)]) ++ g :: gs) = true := by
            rw [List.append_assoc]
            exact hku
          have hstep := ih3 (g :: gs) (acc ++ [(k, v)]) rest (by simp) hwf.2
            hku2 (by omega)
          rw [hu3, List.cons_append] at hstep
          simp [parseStringChars_roundtrip k.data,
            skipWs_cons _ (by decide : jsonWs ':' = false), hc2,
            List.cons_append, skipWs_cons _ hws2, hv, hmk,
            setKey_fresh acc k v hfresh,
            skipWs_cons _ (by decide : jsonWs ',' = false), hu3,
            skipWs_cons _ (by decide : jsonWs '"' = false), hstep,
            List.append_assoc]

theorem jsize_le_len_aux : ∀ n : Nat, ∀ v : Json, sizeOf v ≤ n →
    jsize v ≤ (stringify v).length := by
  intro n
  induction n using Nat.strong_induction_on with
  | _ n ihn =>
    intro v hv
    cases v with
    | null =>
      rw [show stringify .null = 'n' :: 'u' :: 'l' :: 'l' :: [] from
        by rw [stringify]]
      simp [jsize]
    | bool b =>
      cases b with
      | true =>
        rw [show stringify (.bool true) = 't' :: 'r' :: 'u' :: 'e' :: [] from
          by rw [stringify]]
        simp [jsize]
      | false =>
        rw [show stringify (.bool false) =
          'f' :: 'a' :: 'l' :: 's' :: 'e' :: [] from by rw [stringify]]
        simp [jsize]
    | num m =>
      rw [show stringify (.num m) = intChars m from by rw [stringify]]
      obtain ⟨c, t, hct, -⟩ := intChars_head_not_ws m
      rw [hct]
      simp [jsize]
    | str s =>
      rw [show stringify (.str s) = escapeString s from by rw [stringify]]
      simp [jsize, escapeString]
    | arr xs =>
      have helem : ∀ x ∈ xs, jsize x ≤ (stringify x).length := by
        intro x hx
        have hlt : sizeOf x < sizeOf (Json.arr xs) := by
          have := List.sizeOf_lt_of_mem hx
          simp only [Json.arr.sizeOf_spec]
          omega
        exact ihn (sizeOf x) (by omega) x (le_refl _)
      rw [show stringify (.arr xs) = ('[' :: stringifyElems xs) ++ [']'] from
        by rw [stringify]]
      simp only [jsize, List.length_append, List.length_cons,
        List.length_nil]
      have hlist : ∀ t : List Json, (∀ x ∈ t, jsize x ≤ (stringify x).length) →
          jsizeList t ≤ (stringifyElems t).length + 1 := by
        intro t
        induction t with
        | nil => intro _; simp [jsizeList, stringifyElems]
        | cons x t iht =>
          intro hel
          have hx : jsize x ≤ (stringify x).length := hel x (by simp)
          cases t with
          | nil =>
            rw [show stringifyElems [x] = stringify x from
              by rw [stringifyElems]]
            simp [jsizeList]
            omega
          | cons y t2 =>
            have ht : jsizeList (y :: t2) ≤
                (stringifyElems (y :: t2)).length + 1 := by
              apply iht
              intro z hz
              exact hel z (by simp [hz])
            rw [show stringifyElems (x :: y :: t2) =
              stringify x ++ ',' :: stringifyElems (y :: t2) from
              by simp [stringifyElems]]
            simp only [jsizeList, List.length_append, List.length_cons]
            simp only [jsizeList] at ht
            omega
      have := hlist xs helem
      omega
    | obj fs =>
      have helem : ∀ p ∈ fs, jsize p.2 ≤ (stringify p.2).length := by
        intro p hp
        have hlt : sizeOf p.2 < sizeOf (Json.obj fs) := by
          have h1 := List.sizeOf_lt_of_mem hp
          obtain ⟨k, v⟩ := p
          simp only [Json.obj.sizeOf_spec]
          simp only [Prod.mk.sizeOf_spec] at h1
          show sizeOf v < 1 + sizeOf fs
          omega
        exact ihn (sizeOf p.2) (by omega) p.2 (le_refl _)
      rw [show stringify (.obj fs) = ('{' :: stringifyFields fs) ++ ['}'] from
        by rw [stringify]]
      simp only [jsize, List.length_append, List.length_cons,
        List.length_nil]
      have hlist : ∀ t : List (String × Json),
          (∀ p ∈ t, jsize p.2 ≤ (stringify p.2).length) →
          jsizeFields t ≤ (stringifyFields t).length + 1 := by
        intro t
        induction t with
        | nil => intro _; simp [jsizeFields, stringifyFields]
        | cons p t iht =>
          intro hel
          obtain ⟨k, v⟩ := p
          have hx : jsize v ≤ (stringify v).length := hel (k, v) (by simp)
          cases t with
          | nil =>
            rw [show stringifyFields [(k, v)] =
              escapeString k ++ ':' :: stringify v from by rw [stringifyFields]]
            simp only [jsizeFields, List.length_append, List.length_cons]
            omega
          | cons g t2 =>
            have ht : jsizeFields (g :: t2) ≤
                (stringifyFields (g :: t2)).length + 1 := by
              apply iht
              intro z hz
              exact hel z (by simp [hz])
            rw [show stringifyFields ((k, v) :: g :: t2) =
              (escapeString k ++ ':' :: stringify v) ++
                ',' :: stringifyFields (g :: t2) from by simp [stringifyFields]]
            simp only [jsizeFields, List.length_append, List.length_cons]
            simp only [jsizeFields] at ht
            omega
      have := hlist fs helem
      omega

theorem jsize_le_len (v : Json) : jsize v ≤ (stringify v).length :=
  jsize_le_len_aux (sizeOf v) v (le_refl _)

/-- The JSON codec round-trip: parsing the serialization of any
well-formed value recovers it exactly. -/
theorem parseJson_stringify (v : Json) (hwf : wfB v = true) :
    parseJson (stringify v) = some v := by
  unfold parseJson
  have h := (parse_stringify_master ((stringify v).length + 1)).1 v [] hwf
    (by have := jsize_le_len v; omega) (by simp [sepHead])
  rw [List.append_nil] at h
  rw [h]
  simp [skipWs]

theorem wfBList_of_forall : ∀ xs : List Json, (∀ x ∈ xs, wfB x = true) →
    wfBList xs = true := by
  intro xs
  induction xs with
  | nil => intro _; rfl
  | cons x t ih =>
    intro h
    simp only [wfBList, Bool.and_eq_true]
    exact ⟨h x (by simp), ih fun y hy => h y (by simp [hy])⟩

theorem wfBFields_of_forall : ∀ fs : List (String × Json),
    (∀ p ∈ fs, wfB p.2 = true) → wfBFields fs = true := by
  intro fs
  induction fs with
  | nil => intro _; rfl
  | cons p t ih =>
    obtain ⟨k, v⟩ := p
    intro h
    simp only [wfBFields, Bool.and_eq_true]
    exact ⟨h (k, v) (by simp), ih fun q hq => h q (by simp [hq])⟩

theorem hasKey_setKey (l : List (String × Json)) (k k' : String) (v : Json) :
    Json.hasKey (Json.setKey l k v) k' =
      (Json.hasKey l k' || (k' == k)) := by
  induction l with
  | nil =>
    simp only [Json.setKey, Json.hasKey, List.lookup]
    by_cases h : (k' == k) = true
    · simp [h]
    · simp only [Bool.not_eq_true] at h
      simp [h]
  | cons p t ih =>
    obtain ⟨k0, v0⟩ := p
    simp only [Json.setKey]
    by_cases h0 : k0 = k
    · subst h0
      simp only [if_pos rfl, Json.hasKey, List.lookup]
      by_cases h : (k' == k0) = true
      · simp [h, eq_of_beq h]
      · simp only [Bool.not_eq_true] at h
        simp [h]
    · rw [if_neg h0]
      simp only [Json.hasKey, List.lookup]
      by_cases h : (k' == k0) = true
      · simp [h]
      · simp only [Bool.not_eq_true] at h
        simp only [h]
        exact ih

theorem keysUnique_setKey (l : List (String × Json)) (k : String) (v : Json)
    (h : keysUnique l = true) : keysUnique (Json.setKey l k v) = true := by
  induction l with
  | nil => rfl
  | cons p t ih =>
    obtain ⟨k0, v0⟩ := p
    simp only [keysUnique, Bool.and_eq_true, Bool.not_eq_true'] at h
    obtain ⟨h1, h2⟩ := h
    simp only [Json.setKey]
    by_cases h0 : k0 = k
    · subst h0
      simp only [if_pos rfl, keysUnique, Bool.and_eq_true, Bool.not_eq_true']
      exact ⟨h1, h2⟩
    · rw [if_neg h0]
      simp only [keysUnique, Bool.and_eq_true, Bool.not_eq_true']
      refine ⟨?_, ih h2⟩
      rw [hasKey_setKey]
      simp only [h1, Bool.false_or]
      exact beq_eq_false_iff_ne.mpr fun e => h0 e

theorem setKey_mem (l : List (String × Json)) (k : String) (v : Json) :
    ∀ p ∈ Json.setKey l k v, p.2 = v ∨ p ∈ l := by
  induction l with
  | nil =>
    intro p hp
    simp only [Json.setKey, List.mem_singleton] at hp
    subst hp
    exact Or.inl rfl
  | cons q t ih =>
    obtain ⟨k0, v0⟩ := q
    intro p hp
    simp only [Json.setKey] at hp
    by_cases h0 : k0 = k
    · rw [if_pos h0] at hp
      rcases List.mem_cons.mp hp with h | h
      · subst h; exact Or.inl rfl
      · exact Or.inr (by simp [h])
    · rw [if_neg h0] at hp
      rcases List.mem_cons.mp hp with h | h
      · subst h; exact Or.inr (by simp)
      · rcases ih p h with h2 | h2
        · exact Or.inl h2
        · exact Or.inr (by simp [h2])

theorem parse_wf_master : ∀ fuel : Nat,
    (∀ s v rest, parseValue fuel s = some (v, rest) → wfB v = true) ∧
    (∀ s acc v rest, (∀ x ∈ acc, wfB x = true) →
      parseElemList fuel s acc = some (v, rest) → wfB v = true) ∧
    (∀ s acc v rest, keysUnique acc = true → (∀ p ∈ acc, wfB p.2 = true) →
      parseMemberList fuel s acc = some (v, rest) → wfB v = true) := by
  intro fuel
  induction fuel with
  | zero =>
    refine ⟨?_, ?_, ?_⟩
    · intro s v rest h
      rw [parseValue.eq_def] at h
      simp at h
    · intro s acc v rest _ h
      rw [parseElemList.eq_def] at h
      simp at h
    · intro s acc v rest _ _ h
      rw [parseMemberList.eq_def] at h
      simp at h
  | succ fuel ih =>
    obtain ⟨ih1, ih2, ih3⟩ := ih
    refine ⟨?_, ?_, ?_⟩
    · intro s v rest h
      rw [parseValue_succ] at h
      split at h
      · exact absurd h (by simp)
      split at h
      · split at h
        · obtain ⟨he, -⟩ := Prod.mk.inj (Option.some.inj h)
          subst he
          rfl
        · exact ih3 _ [] v rest rfl (by simp) h
      split at h
      · split at h
        · obtain ⟨he, -⟩ := Prod.mk.inj (Option.some.inj h)
          subst he
          rfl
        · exact ih2 _ [] v rest (by simp) h
      split at h
      · obtain ⟨⟨cs, r⟩, hps, heq⟩ := Option.map_eq_some'.mp h
        obtain ⟨he, -⟩ := Prod.mk.inj heq
        subst he
        rfl
      split at h
      · split at h
        · obtain ⟨he, -⟩ := Prod.mk.inj (Option.some.inj h)
          subst he
          rfl
        · exact absurd h (by simp)
      split at h
      · split at h
        · obtain ⟨he, -⟩ := Prod.mk.inj (Option.some.inj h)
          subst he
          rfl
        · exact absurd h (by simp)
      split at h
      · split at h
        · obtain ⟨he, -⟩ := Prod.mk.inj (Option.some.inj h)
          subst he
          rfl
        · exact absurd h (by simp)
      obtain ⟨⟨n, r⟩, hps, heq⟩ := Option.map_eq_some'.mp h
      obtain ⟨he, -⟩ := Prod.mk.inj heq
      subst he
      rfl
    · intro s acc v rest hacc h
      rw [parseElemList_succ] at h
      split at h
      · exact absurd h (by simp)
      rename_i v1 r1 heq
      split at h
      · refine ih2 _ (acc ++ [v1]) v rest ?_ h
        intro x hx
        rcases List.mem_append.mp hx with hx | hx
        · exact hacc x hx
        · rw [List.mem_singleton.mp hx]
          exact ih1 _ _ _ heq
      · obtain ⟨he, -⟩ := Prod.mk.inj (Option.some.inj h)
        subst he
        show wfBList (acc ++ [v1]) = true
        refine wfBList_of_forall _ ?_
        intro x hx
        rcases List.mem_append.mp hx with hx | hx
        · exact hacc x hx
        · rw [List.mem_singleton.mp hx]
          exact ih1 _ _ _ heq
      · exact absurd h (by simp)
    · intro s acc v rest hku hacc h
      rw [parseMemberList_succ] at h
      split at h
      · split at h
        · exact absurd h (by simp)
        rename_i k0 r1 hps
        split at h
        · rename_i rest2 hsw1
          split at h
          · exact absurd h (by simp)
          rename_i v2 r3 hpv
          have hwv2 : wfB v2 = true := ih1 _ _ _ hpv
          have hku2 : keysUnique (Json.setKey acc ⟨k0⟩ v2) = true :=
            keysUnique_setKey acc ⟨k0⟩ v2 hku
          have hacc2 : ∀ p ∈ Json.setKey acc ⟨k0⟩ v2, wfB p.2 = true := by
            intro p hp
            rcases setKey_mem acc ⟨k0⟩ v2 p hp with h2 | h2
            · rw [h2]; exact hwv2
            · exact hacc p h2
          split at h
          · exact ih3 _ _ v rest hku2 hacc2 h
          · obtain ⟨he, -⟩ := Prod.mk.inj (Option.some.inj h)
            subst he
            show wfB (.obj (Json.setKey acc ⟨k0⟩ v2)) = true
            simp only [wfB, Bool.and_eq_true]
            exact ⟨hku2, wfBFields_of_forall _ hacc2⟩
          · exact absurd h (by simp)
        · exact absurd h (by simp)
      · exact absurd h (by simp)

/-- Values produced by `parseJson` are always well-formed (duplicate keys
are collapsed during parsing), so they round-trip through the codec. -/
theorem parseJson_wf (s : List Char) (v : Json) (h : parseJson s = some v) :
    wfB v = true := by
  unfold parseJson at h
  split at h
  · rename_i v0 r0 heq
    split at h
    · exact (Option.some.inj h) ▸ (parse_wf_master _).1 s v0 r0 heq
    · exact absurd h (by simp)
  · exact absurd h (by simp)

/-! ## Further association-list lemmas used by the component proofs -/

theorem lookup_setKey_self (l : List (String × Json)) (k : String) (v : Json) :
    (Json.setKey l k v).lookup k = some v := by
  induction l with
  | nil => simp [Json.setKey, List.lookup]
  | cons p t ih =>
    obtain ⟨k0, v0⟩ := p
    simp only [Json.setKey]
    by_cases h0 : k0 = k
    · subst h0
      simp [List.lookup]
    · rw [if_neg h0]
      simp only [List.lookup]
      have : (k == k0) = false := beq_eq_false_iff_ne.mpr fun e => h0 e.symm
      simp only [this]
      exact ih

theorem lookup_setKey_ne (l : List (String × Json)) (k k' : String) (v : Json)
    (h : k' ≠ k) : (Json.setKey l k v).lookup k' = l.lookup k' := by
  induction l with
  | nil =>
    simp only [Json.setKey, List.lookup]
    have : (k' == k) = false := beq_eq_false_iff_ne.mpr h
    simp [this]
  | cons p t ih =>
    obtain ⟨k0, v0⟩ := p
    simp only [Json.setKey]
    by_cases h0 : k0 = k
    · subst h0
      simp only [if_pos rfl, List.lookup]
      have : (k' == k0) = false := beq_eq_false_iff_ne.mpr h
      simp [this]
    · rw [if_neg h0]
      simp only [List.lookup]
      by_cases hk : (k' == k0) = true
      · simp [hk]
      · simp only [Bool.not_eq_true] at hk
        simp only [hk]
        exact ih

theorem setKey_setKey_same (l : List (String × Json)) (k : String)
    (v v' : Json) : Json.setKey (Json.setKey l k v) k v' = Json.setKey l k v' := by
  induction l with
  | nil => simp [Json.setKey]
  | cons p t ih =>
    obtain ⟨k0, v0⟩ := p
    simp only [Json.setKey]
    by_cases h0 : k0 = k
    · subst h0
      simp [Json.setKey]
    · rw [if_neg h0]
      simp only [Json.setKey, if_neg h0]
      rw [ih]

theorem setKey_eq_of_lookup (l : List (String × Json)) (k : String) (v : Json)
    (h : l.lookup k = some v) : Json.setKey l k v = l := by
  induction l with
  | nil => simp [List.lookup] at h
  | cons p t ih =>
    obtain ⟨k0, v0⟩ := p
    simp only [List.lookup] at h
    simp only [Json.setKey]
    by_cases h0 : k0 = k
    · subst h0
      simp only [beq_self_eq_true, if_true] at h
      rw [if_pos rfl, Option.some.inj h]
    · have : (k == k0) = false := beq_eq_false_iff_ne.mpr fun e => h0 e.symm
      rw [this] at h
      simp only [if_neg h0]
      rw [ih h]

theorem wfBFields_forall : ∀ fs : List (String × Json),
    wfBFields fs = true → ∀ p ∈ fs, wfB p.2 = true := by
  intro fs
  induction fs with
  | nil => intro _ p hp; simp at hp
  | cons q t ih =>
    obtain ⟨k0, v0⟩ := q
    intro h p hp
    simp only [wfBFields, Bool.and_eq_true] at h
    rcases List.mem_cons.mp hp with hp | hp
    · rw [hp]; exact h.1
    · exact ih h.2 p hp

theorem wfB_obj_fields {fs : List (String × Json)}
    (h : wfB (.obj fs) = true) : keysUnique fs = true ∧ wfBFields fs = true := by
  simp only [wfB, Bool.and_eq_true] at h
  exact h

theorem mem_of_lookup_some : ∀ {l : List (String × Json)} {k : String}
    {v : Json}, l.lookup k = some v → (k, v) ∈ l := by
  intro l
  induction l with
  | nil => intro k v h; simp [List.lookup] at h
  | cons p t ih =>
    obtain ⟨k0, v0⟩ := p
    intro k v h
    simp only [List.lookup] at h
    by_cases hk : (k == k0) = true
    · rw [hk] at h
      simp only [if_true] at h
      rw [eq_of_beq hk, Option.some.inj h]
      exact List.mem_cons_self _ _
    · simp only [Bool.not_eq_true] at hk
      rw [hk] at h
      simp only [Bool.false_eq_true, if_false] at h
      exact List.mem_cons_of_mem _ (ih h)

theorem wfB_getField {v u : Json} {k : String} (hwf : wfB v = true)
    (h : v.getField? k = some u) : wfB u = true := by
  cases v with
  | obj fs =>
    simp only [Json.getField?] at h
    exact wfBFields_forall fs (wfB_obj_fields hwf).2 (k, u)
      (mem_of_lookup_some h)
  | null => simp [Json.getField?] at h
  | bool b => simp [Json.getField?] at h
  | num n => simp [Json.getField?] at h
  | str s => simp [Json.getField?] at h
  | arr xs => simp [Json.getField?] at h

/-! ## Tool metadata store

Model of `toolMetadataStore` and its file helpers (fetch-interceptor
module): a session-scoped JSON file plus an in-memory map and a write
shadow. Disk state is the raw text of `{sessionDir}/tool-metadata.json`
(`none` when the file does not exist); reads parse it with `JSON.parse`,
writes serialize with `JSON.stringify` (the temp-file-and-rename step is
modelled as one atomic write, which is exactly what it implements). -/

/-- Metadata extracted from tool-use inputs (`ToolMetadata` interface). -/
structure ToolMetadata where
  intent : Option String
  displayName : Option String
  timestamp : Int
  deriving DecidableEq

/-- The JS object literal `{intent, displayName, timestamp}` as serialized
by `JSON.stringify` (fields holding `undefined` are omitted). -/
def encodeToolMetadata (m : ToolMetadata) : Json :=
  .obj ((match m.intent with
      | some s => [("intent", Json.str s)]
      | none => []) ++
    (match m.displayName with
      | some s => [("displayName", Json.str s)]
      | none => []) ++
    [("timestamp", Json.num m.timestamp)])

/-- Module state of the store plus the session file it is bound to. -/
structure StoreState where
  sessionDir : Option String
  metadataMap : List (String × Json)
  fileCache : Option (List (String × Json))
  disk : Option (List Char)
  deriving DecidableEq

/-- `getMetadataFilePath()`: present iff a session directory is set. -/
def getMetadataFilePath (st : StoreState) : Option String :=
  st.sessionDir.map (fun d => d ++ "/tool-metadata.json")

/-- `readMetadataFile()`: parse the session file; any missing file, read
error or non-object content degrades to the empty record. -/
def readMetadataFile (st : StoreState) : List (String × Json) :=
  match getMetadataFilePath st with
  | none => []
  | some _ =>
    match st.disk with
    | none => []
    | some txt =>
      match parseJson txt with
      | some (.obj fs) => fs
      | _ => []

/-- `writeMetadataFile(all)`: serialize the whole record to the session
file (no-op without a session directory, mirroring the early return). -/
def writeMetadataFile (st : StoreState) (all : List (String × Json)) :
    StoreState :=
  match getMetadataFilePath st with
  | none => st
  | some _ => { st with disk := some (stringify (.obj all)) }

/-- `toolMetadataStore.setSessionDir(dir)`: rebind, drop the file cache,
and eagerly load the on-disk record into the in-memory map. -/
def storeSetSessionDir (st : StoreState) (dir : String) : StoreState :=
  let st1 : StoreState :=
    { st with sessionDir := some dir, fileCache := none, metadataMap := [] }
  { st1 with metadataMap := readMetadataFile st1 }

/-- `toolMetadataStore.set(toolUseId, metadata)`: in-memory map plus
lazily-initialized file shadow, then a full-record write. -/
def storeSet (st : StoreState) (toolUseId : String) (metadata : Json) :
    StoreState :=
  let st1 : StoreState :=
    { st with metadataMap := Json.setKey st.metadataMap toolUseId metadata }
  let cache := match st1.fileCache with
    | some c => c
    | none => readMetadataFile st1
  let cache2 := Json.setKey cache toolUseId metadata
  writeMetadataFile { st1 with fileCache := some cache2 } cache2

/-- `toolMetadataStore.get(toolUseId)`: in-memory first (a truthy hit
returns immediately), else one full file read. -/
def storeGet (st : StoreState) (toolUseId : String) : Option Json :=
  match st.metadataMap.lookup toolUseId with
  | some m => if m.truthy then some m else (readMetadataFile st).lookup toolUseId
  | none => (readMetadataFile st).lookup toolUseId

/-- `toolMetadataStore.delete(toolUseId)`. -/
def storeDelete (st : StoreState) (toolUseId : String) : StoreState :=
  let st1 : StoreState :=
    { st with metadataMap := Json.delKey st.metadataMap toolUseId }
  let cache := match st1.fileCache with
    | some c => c
    | none => readMetadataFile st1
  let cache2 := Json.delKey cache toolUseId
  writeMetadataFile { st1 with fileCache := some cache2 } cache2

/-- A second store instance with fresh module state (a separate process):
empty map and cache, no session directory (`CRAFT_SESSION_DIR` unset),
sharing only the disk. -/
def freshStoreOnDisk (disk : Option (List Char)) : StoreState :=
  { sessionDir := none, metadataMap := [], fileCache := none, disk := disk }

theorem encodeToolMetadata_wf (m : ToolMetadata) :
    wfB (encodeToolMetadata m) = true := by
  obtain ⟨i, d, t⟩ := m
  cases i <;> cases d <;> simp [encodeToolMetadata, wfB, wfBFields,
    keysUnique, Json.hasKey, List.lookup]

theorem encodeToolMetadata_truthy (m : ToolMetadata) :
    (encodeToolMetadata m).truthy = true := by
  simp [encodeToolMetadata, Json.truthy]

/-- The record read back from disk is always well-formed: it is either
empty or the object part of a successful `JSON.parse`. -/
theorem readMetadataFile_wf (st : StoreState) :
    keysUnique (readMetadataFile st) = true ∧
    wfBFields (readMetadataFile st) = true := by
  unfold readMetadataFile
  split
  · exact ⟨rfl, rfl⟩
  split
  · exact ⟨rfl, rfl⟩
  split
  · rename_i fs hp
    exact wfB_obj_fields (parseJson_wf _ _ hp)
  · exact ⟨rfl, rfl⟩

/-- A JS object held by the file shadow: unique keys, serializable values
(every reachable shadow is one; the model's raw lists can express more). -/
def cacheWf : Option (List (String × Json)) → Bool
  | none => true
  | some cc => keysUnique cc && wfBFields cc

/-- Claim C8: if `set(id, m)` succeeds — disk write included, i.e. the
store is bound to a session directory `D` — then a second store instance
with fresh module state (a separate process), after
`setSessionDirectory(D)`, returns metadata equal to `m` from `get(id)`
without any further `set` call. `cacheWf` states the file shadow is a
genuine JS object (unique keys, serializable values), true of every
reachable state. -/
theorem metadata_store_cross_process_get
    (st : StoreState) (D toolUseId : String) (m : ToolMetadata)
    (hdir : st.sessionDir = some D)
    (hcache : cacheWf st.fileCache = true) :
    storeGet
      (storeSetSessionDir
        (freshStoreOnDisk
          (storeSet st toolUseId (encodeToolMetadata m)).disk) D)
      toolUseId = some (encodeToolMetadata m) := by
  set md := encodeToolMetadata m with hmd
  set st1 : StoreState :=
    { st with metadataMap := Json.setKey st.metadataMap toolUseId md }
    with hst1
  set cache : List (String × Json) :=
    (match st1.fileCache with
      | some cc => cc
      | none => readMetadataFile st1) with hcachedef
  have hwfc : keysUnique cache = true ∧ wfBFields cache = true := by
    rw [hcachedef]
    cases hfc : st1.fileCache with
    | some cc =>
      have : st.fileCache = some cc := hfc
      rw [this] at hcache
      simp only [cacheWf, Bool.and_eq_true] at hcache
      exact hcache
    | none => exact readMetadataFile_wf st1
  set cache2 : List (String × Json) := Json.setKey cache toolUseId md
    with hcache2
  have hwf2 : wfB (.obj cache2) = true := by
    simp only [wfB, Bool.and_eq_true]
    constructor
    · exact keysUnique_setKey _ _ _ hwfc.1
    · refine wfBFields_of_forall _ ?_
      intro p hp
      rcases setKey_mem cache toolUseId md p hp with h2 | h2
      · rw [h2, hmd]; exact encodeToolMetadata_wf m
      · exact wfBFields_forall _ hwfc.2 p h2
  have hdisk : (storeSet st toolUseId md).disk =
      some (stringify (.obj cache2)) := by
    show (writeMetadataFile { st1 with fileCache := some cache2 } cache2).disk =
      some (stringify (.obj cache2))
    unfold writeMetadataFile
    simp only [getMetadataFilePath, hdir, Option.map_some']
  rw [hdisk]
  have hparse := parseJson_stringify (.obj cache2) hwf2
  unfold storeGet storeSetSessionDir readMetadataFile getMetadataFilePath
    freshStoreOnDisk
  simp only [Option.map_some', hparse]
  rw [hcache2, lookup_setKey_self]
  rw [hmd]
  simp [encodeToolMetadata_truthy]

/-- Witness for the cross-process metadata-store claim at a concrete
store, session directory, id and metadata value. -/
theorem metadata_store_cross_process_get_witness :
    storeGet
      (storeSetSessionDir
        (freshStoreOnDisk
          (storeSet ⟨some "/sess", [], none, none⟩ "toolu_01"
            (encodeToolMetadata ⟨some "x", some "y", 1700000000⟩)).disk)
        "/sess")
      "toolu_01" = some (encodeToolMetadata ⟨some "x", some "y", 1700000000⟩) :=
  metadata_store_cross_process_get ⟨some "/sess", [], none, none⟩ "/sess"
    "toolu_01" ⟨some "x", some "y", 1700000000⟩ rfl rfl

/-! ## Last-API-error store

Model of the single-slot, file-backed error store (`api-error.json`):
`setStoredError` serializes with `JSON.stringify`, `getStoredError`
reads, parses, deletes the file (pop) and returns the value, and
`getLastApiError` applies the 5-minute staleness window. The response
capture in `logResponse` extracts a human-readable message from the
response body. Clock values are passed explicitly (`Date.now()`). -/

/-- `LastApiError` (the `message` is kept as the JSON value the code
assigns; the interface declares it a string and in every non-adversarial
response it is one). -/
structure LastApiError where
  status : Int
  statusText : String
  message : Json
  timestamp : Int
  deriving DecidableEq

/-- The object literal passed to `JSON.stringify` by `setStoredError`. -/
def encodeLastApiError (e : LastApiError) : Json :=
  .obj [("status", .num e.status), ("statusText", .str e.statusText),
    ("message", e.message), ("timestamp", .num e.timestamp)]

/-- The field reads getLastApiError and its consumers perform on the
parsed value. A shape that does not decode behaves exactly like the JS
cast followed by failing truthiness/`NaN` checks: the caller sees `null`. -/
def decodeLastApiError (j : Json) : Option LastApiError :=
  match j.getField? "status", j.getField? "statusText",
      j.getField? "message", j.getField? "timestamp" with
  | some (.num st), some (.str sx), some msg, some (.num ts) =>
    some ⟨st, sx, msg, ts⟩
  | _, _, _, _ => none

/-- Contents of `~/.craft-agent/api-error.json` (`none` = absent). -/
structure ErrorStoreState where
  errorFile : Option (List Char)
  deriving DecidableEq

/-- 5-minute staleness window (`MAX_ERROR_AGE_MS`). -/
def MAX_ERROR_AGE_MS : Int := 5 * 60 * 1000

/-- `getStoredError()`: read, parse, then pop (delete) the file. A parse
failure returns `null` and — as in the code, where `unlinkSync` is only
reached after a successful `JSON.parse` — leaves the file in place. -/
def getStoredError (st : ErrorStoreState) :
    Option LastApiError × ErrorStoreState :=
  match st.errorFile with
  | none => (none, st)
  | some txt =>
    match parseJson txt with
    | none => (none, st)
    | some j => (decodeLastApiError j, ⟨none⟩)

/-- `setStoredError(error)`: write the serialized error, or delete the
file when clearing. -/
def setStoredError (st : ErrorStoreState) (e : Option LastApiError) :
    ErrorStoreState :=
  match e with
  | some err => ⟨some (stringify (encodeLastApiError err))⟩
  | none => ⟨none⟩

/-- `getLastApiError()`: pop the stored error and return it only when it
is younger than the staleness window. -/
def getLastApiError (now : Int) (st : ErrorStoreState) :
    Option LastApiError × ErrorStoreState :=
  match getStoredError st with
  | (some err, st1) =>
    if now - err.timestamp < MAX_ERROR_AGE_MS then (some err, st1)
    else (none, st1)
  | (none, st1) => (none, st1)

/-- Message extraction in `logResponse`: prefer `errorJson.error.message`,
then `errorJson.message` (JS truthiness), then the raw body text if
non-empty, finally the HTTP status line.  A body parsing to JSON `null`
throws at `errorJson.error?.message` (the optional chain does not guard
the first access), so the catch falls back to the raw text exactly as a
parse failure does. -/
def extractErrorMessage (bodyText : List Char) (statusText : String) : Json :=
  match parseJson bodyText with
  | some j =>
    if j = Json.null then
      (if bodyText = [] then .str statusText else .str ⟨bodyText⟩)
    else
    match (j.getField? "error").bind (fun e => e.getField? "message") with
    | some m1 =>
      if m1.truthy then m1
      else
        match j.getField? "message" with
        | some m2 => if m2.truthy then m2 else .str statusText
        | none => .str statusText
    | none =>
      match j.getField? "message" with
      | some m2 => if m2.truthy then m2 else .str statusText
      | none => .str statusText
  | none =>
    if bodyText = [] then .str statusText else .str ⟨bodyText⟩

/-- The error-capture branch of `logResponse` for a ≥400 response to the
provider's messages endpoint. -/
def captureApiError (status : Int) (statusText : String)
    (bodyText : List Char) (now : Int) (st : ErrorStoreState) :
    ErrorStoreState :=
  setStoredError st
    (some ⟨status, statusText, extractErrorMessage bodyText statusText, now⟩)

theorem extractErrorMessage_wf (bodyText : List Char) (statusText : String) :
    wfB (extractErrorMessage bodyText statusText) = true := by
  unfold extractErrorMessage
  split
  · rename_i j hp
    have hwfj := parseJson_wf _ _ hp
    split
    · split <;> rfl
    split
    · rename_i m1 hm1
      obtain ⟨e0, he0, hme⟩ := Option.bind_eq_some.mp hm1
      have hwm1 := wfB_getField (wfB_getField hwfj he0) hme
      split
      · exact hwm1
      · split
        · rename_i m2 hm2
          split
          · exact wfB_getField hwfj hm2
          · rfl
        · rfl
    · split
      · rename_i m2 hm2
        split
        · exact wfB_getField hwfj hm2
        · rfl
      · rfl
  · split <;> rfl

theorem encodeLastApiError_wf (e : LastApiError)
    (hm : wfB e.message = true) : wfB (encodeLastApiError e) = true := by
  simp [encodeLastApiError, wfB, wfBFields, keysUnique, Json.hasKey,
    List.lookup, hm]

theorem decode_encode_lastApiError (e : LastApiError) :
    decodeLastApiError (encodeLastApiError e) = some e := by
  simp [decodeLastApiError, encodeLastApiError, Json.getField?, List.lookup]

/-- Claim C9: after a 4xx/5xx provider response is captured at time `t`,
the first `getLastApiError()` call (within the staleness window) returns
the stored error; an immediately following second call returns `null`
(the entry is deleted on read); and a call made at or after 5 minutes from
the error's timestamp returns `null` even for a never-read entry. -/
theorem api_error_pop_and_staleness
    (st : ErrorStoreState) (status : Int) (statusText : String)
    (bodyText : List Char) (t now1 now2 now3 : Int)
    (hstatus : 400 ≤ status)
    (hfresh : now1 - t < MAX_ERROR_AGE_MS)
    (hstale : MAX_ERROR_AGE_MS ≤ now3 - t) :
    (getLastApiError now1 (captureApiError status statusText bodyText t st)).1
      = some ⟨status, statusText, extractErrorMessage bodyText statusText, t⟩ ∧
    (getLastApiError now2
      (getLastApiError now1
        (captureApiError status statusText bodyText t st)).2).1 = none ∧
    (getLastApiError now3
      (captureApiError status statusText bodyText t st)).1 = none := by
  have hwfm := extractErrorMessage_wf bodyText statusText
  have hwfe : wfB (encodeLastApiError
      ⟨status, statusText, extractErrorMessage bodyText statusText, t⟩) =
      true := encodeLastApiError_wf _ hwfm
  have hparse := parseJson_stringify _ hwfe
  have hget : getStoredError (captureApiError status statusText bodyText t st) =
      (some ⟨status, statusText, extractErrorMessage bodyText statusText, t⟩,
        ⟨none⟩) := by
    unfold captureApiError setStoredError getStoredError
    simp [hparse, decode_encode_lastApiError]
  have hsnd : (getLastApiError now1
      (captureApiError status statusText bodyText t st)).2 = ⟨none⟩ := by
    unfold getLastApiError
    rw [hget]
    split
    · rename_i err st1 heq
      obtain ⟨-, he2⟩ := Prod.mk.inj heq
      subst he2
      split <;> rfl
    · rename_i st1 heq
      exact absurd (Prod.mk.inj heq).1 (by simp)
  refine ⟨?_, ?_, ?_⟩
  · unfold getLastApiError
    rw [hget]
    simp only []
    rw [if_pos hfresh]
  · rw [hsnd]
    rfl
  · unfold getLastApiError
    rw [hget]
    simp only []
    rw [if_neg (by omega)]

/-- Witness for the error-store pop/staleness claim at a concrete capture
and three concrete clock readings. -/
theorem api_error_pop_and_staleness_witness :
    (getLastApiError 1000 (captureApiError 402 "Payment Required"
      "\x7b\"error\":\x7b\"message\":\"quota\"\x7d\x7d".data 500 ⟨none⟩)).1
      = some ⟨402, "Payment Required",
          extractErrorMessage "\x7b\"error\":\x7b\"message\":\"quota\"\x7d\x7d".data
            "Payment Required", 500⟩ ∧
    (getLastApiError 1001 (getLastApiError 1000
      (captureApiError 402 "Payment Required"
        "\x7b\"error\":\x7b\"message\":\"quota\"\x7d\x7d".data 500 ⟨none⟩)).2).1 = none ∧
    (getLastApiError 300501 (captureApiError 402 "Payment Required"
      "\x7b\"error\":\x7b\"message\":\"quota\"\x7d\x7d".data 500 ⟨none⟩)).1 = none :=
  api_error_pop_and_staleness ⟨none⟩ 402 "Payment Required"
    "\x7b\"error\":\x7b\"message\":\"quota\"\x7d\x7d".data 500 1000 1001 300501
    (by decide) (by decide) (by decide)

/-! ## Request rewriter: tool-schema augmentation

Model of `addMetadataToAllTools` (fetch-interceptor module). JS behaviours
that throw `TypeError` (property access on `null`, calling `startsWith` on
a non-string, the `in` operator on a non-object) are modelled as
`Except.error`; the caller (`interceptedFetch`) catches them and falls
back to the unmodified request. Mutation-in-place is modelled by
rebuilding the enclosing objects with `setKey`, which preserves JS
insertion order. -/

/-- `pre` is a prefix of `s` (character-list version of
`String.prototype.startsWith`). -/
def listStartsWith : List Char → List Char → Bool
  | _, [] => true
  | [], _ :: _ => false
  | c :: cs, p :: ps => c == p && listStartsWith cs ps

/-- `s.startsWith(pre)` on strings. -/
def strStartsWith (s pre : String) : Bool :=
  listStartsWith s.data pre.data

/-- Feature flag: when false, only MCP tools get metadata fields. -/
def TOOL_METADATA_FOR_ALL_TOOLS : Bool := false

/-- The `_intent` property schema added to tool input schemas. -/
def intentSchema : Json :=
  .obj [("type", .str "string"),
    ("description", .str "REQUIRED: Describe what you are trying to accomplish with this tool call (1-2 sentences)")]

/-- The `_displayName` property schema added to tool input schemas. -/
def displayNameSchema : Json :=
  .obj [("type", .str "string"),
    ("description", .str "REQUIRED: Human-friendly name for this action (2-4 words, e.g., \"List Folders\", \"Search Documents\", \"Create Task\")")]

/-- `tool.input_schema.required || []`, with the TypeError of spreading a
non-iterable (and the char-spread of a string, not produced by any real
schema) modelled as an error. -/
def requiredList (sf : List (String × Json)) : Except String (List Json) :=
  match sf.lookup "required" with
  | none => .ok []
  | some r =>
    if r.truthy = false then .ok []
    else
      match r with
      | .arr xs => .ok xs
      | _ => .error "TypeError: required is not spreadable"

/-- The body of the per-tool loop in `addMetadataToAllTools`. -/
def augmentTool (tool : Json) : Except String Json :=
  match tool with
  | .null => .error "TypeError: cannot read properties of null"
  | .obj tf =>
    match tf.lookup "name" with
    | none => .ok tool
    | some .null => .ok tool
    | some (.str nm) =>
      if !TOOL_METADATA_FOR_ALL_TOOLS && !(strStartsWith nm "mcp__") then .ok tool
      else
        match tf.lookup "input_schema" with
        | some (.obj sf) =>
          match sf.lookup "properties" with
          | some p =>
            if p.truthy = false then .ok tool
            else
              match p with
              | .obj pf =>
                if Json.hasKey pf "_intent" && Json.hasKey pf "_displayName" then
                  .ok tool
                else
                  match requiredList sf with
                  | .error e => .error e
                  | .ok cur =>
                    .ok (.obj (Json.setKey tf "input_schema"
                      (.obj (Json.setKey
                        (Json.setKey sf "properties"
                          (.obj (if Json.hasKey pf "_displayName" then
                              (if Json.hasKey pf "_intent" then pf
                                else pf ++ [("_intent", intentSchema)])
                            else (if Json.hasKey pf "_intent" then pf
                                else pf ++ [("_intent", intentSchema)]) ++
                              [("_displayName", displayNameSchema)])))
                        "required"
                        (.arr (if cur.contains (Json.str "_displayName") then
                            (if cur.contains (Json.str "_intent") then cur
                              else cur ++ [Json.str "_intent"])
                          else (if cur.contains (Json.str "_intent") then cur
                              else cur ++ [Json.str "_intent"]) ++
                            [Json.str "_displayName"]))))))
              | _ => .error "TypeError: cannot use in on non-object"
          | none => .ok tool
        | _ => .ok tool
    | some _ => .error "TypeError: startsWith is not a function"
  | _ => .ok tool

/-- The loop over `body.tools`. -/
def augmentTools : List Json → Except String (List Json)
  | [] => .ok []
  | t :: ts =>
    match augmentTool t with
    | .error e => .error e
    | .ok t2 =>
      match augmentTools ts with
      | .error e => .error e
      | .ok ts2 => .ok (t2 :: ts2)

/-- `addMetadataToAllTools(body)`: add `_intent` and `_displayName` to the
input schema of every (MCP) tool and mark them required. -/
def addMetadataToAllTools (body : Json) : Except String Json :=
  match body with
  | .null => .error "TypeError: cannot read properties of null"
  | .obj bf =>
    match bf.lookup "tools" with
    | some (.arr tools) =>
      match augmentTools tools with
      | .error e => .error e
      | .ok tools2 => .ok (.obj (Json.setKey bf "tools" (.arr tools2)))
    | _ => .ok body
  | _ => .ok body

theorem hasKey_append (l1 l2 : List (String × Json)) (k : String) :
    Json.hasKey (l1 ++ l2) k = (Json.hasKey l1 k || Json.hasKey l2 k) := by
  induction l1 with
  | nil => simp [Json.hasKey]
  | cons p t ih =>
    obtain ⟨k0, v0⟩ := p
    simp only [List.cons_append, Json.hasKey, List.lookup]
    by_cases hk : (k == k0) = true
    · simp [hk]
    · simp only [Bool.not_eq_true] at hk
      simp only [hk]
      exact ih

/-- One pass of the per-tool augmentation is idempotent: a tool produced
by a successful pass is returned unchanged by a second pass. -/
theorem augmentTool_idem (t t2 : Json) (h : augmentTool t = .ok t2) :
    augmentTool t2 = .ok t2 := by
  have h0 := h
  unfold augmentTool at h
  split at h
  · exact absurd h (by simp)
  · rename_i tf
    split at h
    · exact (Except.ok.inj h) ▸ h0
    · exact (Except.ok.inj h) ▸ h0
    · rename_i nm hname
      split at h
      · exact (Except.ok.inj h) ▸ h0
      · rename_i hskip
        split at h
        · rename_i sf hschema
          split at h
          · rename_i p hprops
            split at h
            · exact (Except.ok.inj h) ▸ h0
            · rename_i hptruthy
              split at h
              · rename_i pf
                split at h
                · exact (Except.ok.inj h) ▸ h0
                · rename_i hnotboth
                  split at h
                  · exact absurd h (by simp)
                  · rename_i cur hreq
                    obtain rfl := (Except.ok.inj h).symm
                    have hI2 : Json.hasKey
                        (if Json.hasKey pf "_displayName" then
                          (if Json.hasKey pf "_intent" then pf
                            else pf ++ [("_intent", intentSchema)])
                          else (if Json.hasKey pf "_intent" then pf
                            else pf ++ [("_intent", intentSchema)]) ++
                            [("_displayName", displayNameSchema)])
                        "_intent" = true := by
                      have hsing : Json.hasKey [("_intent", intentSchema)]
                          "_intent" = true := by decide
                      by_cases hd : Json.hasKey pf "_displayName" = true
                      · rw [if_pos hd]
                        by_cases hi : Json.hasKey pf "_intent" = true
                        · rw [if_pos hi]; exact hi
                        · rw [if_neg hi, hasKey_append, hsing, Bool.or_true]
                      · rw [if_neg hd, hasKey_append]
                        by_cases hi : Json.hasKey pf "_intent" = true
                        · rw [if_pos hi, hi, Bool.true_or]
                        · rw [if_neg hi, hasKey_append, hsing,
                            Bool.or_true, Bool.true_or]
                    have hD2 : Json.hasKey
                        (if Json.hasKey pf "_displayName" then
                          (if Json.hasKey pf "_intent" then pf
                            else pf ++ [("_intent", intentSchema)])
                          else (if Json.hasKey pf "_intent" then pf
                            else pf ++ [("_intent", intentSchema)]) ++
                            [("_displayName", displayNameSchema)])
                        "_displayName" = true := by
                      have hsing : Json.hasKey
                          [("_displayName", displayNameSchema)]
                          "_displayName" = true := by decide
                      by_cases hd : Json.hasKey pf "_displayName" = true
                      · rw [if_pos hd]
                        by_cases hi : Json.hasKey pf "_intent" = true
                        · rw [if_pos hi]; exact hd
                        · rw [if_neg hi, hasKey_append, hd, Bool.true_or]
                      · rw [if_neg hd, hasKey_append, hsing, Bool.or_true]
                    revert hI2 hD2
                    generalize (if Json.hasKey pf "_displayName" = true then
                        (if Json.hasKey pf "_intent" = true then pf
                          else pf ++ [("_intent", intentSchema)])
                      else (if Json.hasKey pf "_intent" = true then pf
                          else pf ++ [("_intent", intentSchema)]) ++
                        [("_displayName", displayNameSchema)]) = PF2
                    generalize (if cur.contains (Json.str "_displayName") =
                          true then
                        (if cur.contains (Json.str "_intent") = true then cur
                          else cur ++ [Json.str "_intent"])
                      else (if cur.contains (Json.str "_intent") = true
                          then cur
                          else cur ++ [Json.str "_intent"]) ++
                        [Json.str "_displayName"]) = R2
                    intro hI2 hD2
                    have hn2 : List.lookup "name" (Json.setKey tf
                        "input_schema" (Json.obj (Json.setKey
                          (Json.setKey sf "properties" (Json.obj PF2))
                          "required" (Json.arr R2)))) =
                        some (Json.str nm) := by
                      rw [lookup_setKey_ne _ _ _ _ (by decide)]
                      exact hname
                    have hs2 : List.lookup "input_schema" (Json.setKey tf
                        "input_schema" (Json.obj (Json.setKey
                          (Json.setKey sf "properties" (Json.obj PF2))
                          "required" (Json.arr R2)))) =
                        some (Json.obj (Json.setKey
                          (Json.setKey sf "properties" (Json.obj PF2))
                          "required" (Json.arr R2))) :=
                      lookup_setKey_self _ _ _
                    have hp2 : List.lookup "properties" (Json.setKey
                        (Json.setKey sf "properties" (Json.obj PF2))
                        "required" (Json.arr R2)) = some (Json.obj PF2) := by
                      rw [lookup_setKey_ne _ _ _ _ (by decide)]
                      exact lookup_setKey_self _ _ _
                    unfold augmentTool
                    simp only [hn2, hs2, hp2, hI2, hD2, Json.truthy,
                      Bool.and_self, if_neg hskip]
                    simp
              · exact absurd h (by simp)
          · exact (Except.ok.inj h) ▸ h0
        · exact (Except.ok.inj h) ▸ h0
    · exact absurd h (by simp)
  · exact (Except.ok.inj h) ▸ h0

theorem augmentTools_idem (ts ts2 : List Json)
    (h : augmentTools ts = .ok ts2) : augmentTools ts2 = .ok ts2 := by
  induction ts generalizing ts2 with
  | nil =>
    obtain rfl := (Except.ok.inj h).symm
    rfl
  | cons t tl ih =>
    unfold augmentTools at h
    split at h
    · exact absurd h (by simp)
    · rename_i t2 heq1
      split at h
      · exact absurd h (by simp)
      · rename_i tl2 heq2
        obtain rfl := (Except.ok.inj h).symm
        have h1 := augmentTool_idem t t2 heq1
        have h2 := ih tl2 heq2
        unfold augmentTools
        simp only [h1, h2]

/-- C6: The tool-schema augmentation `addMetadataToAllTools` is idempotent:
a body produced by a successful pass is returned unchanged by a second
pass, so no property is added or changed and no entry is appended to any
required list the second time. -/
theorem addMetadataToAllTools_idem (body body2 : Json)
    (h : addMetadataToAllTools body = .ok body2) :
    addMetadataToAllTools body2 = .ok body2 := by
  have h0 := h
  unfold addMetadataToAllTools at h
  split at h
  · exact absurd h (by simp)
  · rename_i bf
    split at h
    · rename_i tools htools
      split at h
      · exact absurd h (by simp)
      · rename_i tools2 haug
        obtain rfl := (Except.ok.inj h).symm
        have h1 := augmentTools_idem tools tools2 haug
        have ht2 : List.lookup "tools"
            (Json.setKey bf "tools" (Json.arr tools2)) =
            some (Json.arr tools2) := lookup_setKey_self _ _ _
        unfold addMetadataToAllTools
        simp only [ht2, h1, setKey_setKey_same]
    · obtain rfl := (Except.ok.inj h).symm
      exact h0
  · obtain rfl := (Except.ok.inj h).symm
    exact h0

/-- Closed instance of the C6 idempotence theorem on a concrete MCP tool
whose schema lacks both metadata properties. -/
theorem addMetadataToAllTools_idem_witness :
    addMetadataToAllTools (Json.obj [("tools", Json.arr [Json.obj
      [("name", Json.str "mcp__x"),
       ("input_schema", Json.obj
         [("type", Json.str "object"),
          ("properties", Json.obj
            [("_intent", intentSchema),
             ("_displayName", displayNameSchema)]),
          ("required", Json.arr
            [Json.str "_intent", Json.str "_displayName"])])]])]) =
    Except.ok (Json.obj [("tools", Json.arr [Json.obj
      [("name", Json.str "mcp__x"),
       ("input_schema", Json.obj
         [("type", Json.str "object"),
          ("properties", Json.obj
            [("_intent", intentSchema),
             ("_displayName", displayNameSchema)]),
          ("required", Json.arr
            [Json.str "_intent", Json.str "_displayName"])])]])]) :=
  addMetadataToAllTools_idem
    (Json.obj [("tools", Json.arr [Json.obj
      [("name", Json.str "mcp__x"),
       ("input_schema", Json.obj
         [("type", Json.str "object"),
          ("properties", Json.obj []),
          ("required", Json.arr [])])]])])
    (Json.obj [("tools", Json.arr [Json.obj
      [("name", Json.str "mcp__x"),
       ("input_schema", Json.obj
         [("type", Json.str "object"),
          ("properties", Json.obj
            [("_intent", intentSchema),
             ("_displayName", displayNameSchema)]),
          ("required", Json.arr
            [Json.str "_intent", Json.str "_displayName"])])]])])
    (by rfl)

/-! ## Model of `injectMetadataIntoHistory`

The function walks `body.messages`, and for every assistant message whose
`content` is an array injects stored metadata into `tool_use` blocks that
do not already carry `_intent` or `_displayName`.  The in-memory map
`_metadataMap` and the lazily-read metadata file are passed in as the
association lists `mem` and `file` (the file is read at most once and the
function does not write, so a constant snapshot is faithful).  JS
`TypeError`s (property access on `null`, `in` on a non-object, iterating
a non-iterable) are modelled as `Except.error`. -/

mutual

/-- Fuelled JS `String()` coercion used for `fileMetadata[block.id]`
property keys (`null`→"null", numbers in decimal, arrays joined by `,`
with null elements empty, plain objects as `[object Object]`). -/
def jsKeyAux : Nat → Json → String
  | _, .null => "null"
  | _, .bool true => "true"
  | _, .bool false => "false"
  | _, .num n => String.mk (intChars n)
  | _, .str s => s
  | _, .obj _ => "[object Object]"
  | 0, .arr _ => ""
  | f + 1, .arr xs => jsKeyList f xs

/-- `Array.prototype.join(',')` under `String()` coercion. -/
def jsKeyList : Nat → List Json → String
  | _, [] => ""
  | 0, _ :: _ => ""
  | _ + 1, [.null] => ""
  | f + 1, [v] => jsKeyAux f v
  | f + 1, .null :: y :: t => "," ++ jsKeyList f (y :: t)
  | f + 1, v :: y :: t => jsKeyAux f v ++ "," ++ jsKeyList f (y :: t)

end

/-- The property key JS uses for `fileMetadata[id]`. -/
def jsPropKey (id : Json) : String := jsKeyAux (jsize id) id

/-- `let stored = _metadataMap.get(block.id); if (!stored) stored =
fileMetadata[block.id]` — the `Map` holds only string keys, so a
non-string id misses it; the file object is indexed by the coerced key. -/
def storedFor (mem file : List (String × Json)) (id : Json) : Option Json :=
  match (match id with | .str s => mem.lookup s | _ => none) with
  | some v => if v.truthy then some v else file.lookup (jsPropKey id)
  | none => file.lookup (jsPropKey id)

/-- Property read `stored.k` (undefined on primitives, field on objects;
`stored` is truthy where this is used, so it is never `null`). -/
def fieldVal (stored : Json) (k : String) : Option Json :=
  match stored with
  | .obj sf => sf.lookup k
  | _ => none

/-- The injection applied to a block's `input` fields: set `_intent`
and/or `_displayName` when the stored metadata is truthy and the
respective field of it is truthy. -/
def injectBlockInput (mem file : List (String × Json)) (id : Json)
    (inf : List (String × Json)) : List (String × Json) :=
  match storedFor mem file id with
  | none => inf
  | some stored =>
    if stored.truthy = false then inf
    else
      match fieldVal stored "displayName" with
      | some w =>
        if w.truthy then
          Json.setKey (match fieldVal stored "intent" with
            | some v => if v.truthy then Json.setKey inf "_intent" v else inf
            | none => inf) "_displayName" w
        else
          match fieldVal stored "intent" with
          | some v => if v.truthy then Json.setKey inf "_intent" v else inf
          | none => inf
      | none =>
        match fieldVal stored "intent" with
        | some v => if v.truthy then Json.setKey inf "_intent" v else inf
        | none => inf

/-- The body of the inner per-block loop. -/
def injectBlock (mem file : List (String × Json)) (block : Json) :
    Except String Json :=
  match block with
  | .null => .error "TypeError: cannot read properties of null"
  | .obj bf =>
    match bf.lookup "type" with
    | some (.str "tool_use") =>
      match bf.lookup "id" with
      | none => .ok block
      | some id =>
        if id.truthy = false then .ok block
        else
          match bf.lookup "input" with
          | none => .ok block
          | some inp =>
            if inp.truthy = false then .ok block
            else
              match inp with
              | .obj inf =>
                if Json.hasKey inf "_intent" || Json.hasKey inf "_displayName"
                then .ok block
                else .ok (.obj (Json.setKey bf "input"
                  (.obj (injectBlockInput mem file id inf))))
              | _ => .error "TypeError: cannot use in on non-object"
    | _ => .ok block
  | _ => .ok block

/-- The loop over an assistant message's `content` array. -/
def injectBlocks (mem file : List (String × Json)) :
    List Json → Except String (List Json)
  | [] => .ok []
  | b :: bs =>
    match injectBlock mem file b with
    | .error e => .error e
    | .ok b2 =>
      match injectBlocks mem file bs with
      | .error e => .error e
      | .ok bs2 => .ok (b2 :: bs2)

/-- The body of the outer per-message loop (skips non-assistant messages
and messages whose `content` is not an array). -/
def injectMessage (mem file : List (String × Json)) (msg : Json) :
    Except String Json :=
  match msg with
  | .null => .error "TypeError: cannot read properties of null"
  | .obj mf =>
    match mf.lookup "role" with
    | some (.str "assistant") =>
      match mf.lookup "content" with
      | some (.arr blocks) =>
        match injectBlocks mem file blocks with
        | .error e => .error e
        | .ok blocks2 => .ok (.obj (Json.setKey mf "content" (.arr blocks2)))
      | _ => .ok msg
    | _ => .ok msg
  | _ => .ok msg

/-- The loop over `body.messages`. -/
def injectMessages (mem file : List (String × Json)) :
    List Json → Except String (List Json)
  | [] => .ok []
  | m :: ms =>
    match injectMessage mem file m with
    | .error e => .error e
    | .ok m2 =>
      match injectMessages mem file ms with
      | .error e => .error e
      | .ok ms2 => .ok (m2 :: ms2)

/-- `injectMetadataIntoHistory(body)`.  A falsy `messages` returns the
body unchanged; iterating a string visits characters, none of which is an
assistant message object, so it is also the identity; iterating any other
truthy non-array throws. -/
def injectMetadataIntoHistory (mem file : List (String × Json))
    (body : Json) : Except String Json :=
  match body with
  | .null => .error "TypeError: cannot read properties of null"
  | .obj bf =>
    match bf.lookup "messages" with
    | none => .ok body
    | some ms =>
      if ms.truthy = false then .ok body
      else
        match ms with
        | .arr msgs =>
          match injectMessages mem file msgs with
          | .error e => .error e
          | .ok msgs2 => .ok (.obj (Json.setKey bf "messages" (.arr msgs2)))
        | .str _ => .ok body
        | _ => .error "TypeError: messages is not iterable"
  | _ => .ok body

theorem injectBlockInput_cases (mem file : List (String × Json))
    (id : Json) (inf : List (String × Json)) :
    injectBlockInput mem file id inf = inf ∨
      Json.hasKey (injectBlockInput mem file id inf) "_intent" = true ∨
      Json.hasKey (injectBlockInput mem file id inf) "_displayName" = true := by
  unfold injectBlockInput
  split
  · exact Or.inl rfl
  · rename_i stored hst
    split
    · exact Or.inl rfl
    · rename_i htr
      split
      · rename_i w hw
        split
        · right; right
          rw [hasKey_setKey]
          simp
        · split
          · rename_i v hv
            split
            · right; left
              rw [hasKey_setKey]
              simp
            · exact Or.inl rfl
          · exact Or.inl rfl
      · split
        · rename_i v hv
          split
          · right; left
            rw [hasKey_setKey]
            simp
          · exact Or.inl rfl
        · exact Or.inl rfl

theorem injectBlock_idem (mem file : List (String × Json)) (b b2 : Json)
    (h : injectBlock mem file b = .ok b2) :
    injectBlock mem file b2 = .ok b2 := by
  have h0 := h
  unfold injectBlock at h
  split at h
  all_goals try exact Except.noConfusion h
  all_goals try exact (Except.ok.inj h) ▸ h0
  rename_i bf
  split at h
  all_goals try exact (Except.ok.inj h) ▸ h0
  rename_i htype
  split at h
  all_goals try exact (Except.ok.inj h) ▸ h0
  rename_i id hid
  split at h
  all_goals try exact (Except.ok.inj h) ▸ h0
  rename_i hidt
  split at h
  all_goals try exact (Except.ok.inj h) ▸ h0
  rename_i inp hinp
  split at h
  all_goals try exact (Except.ok.inj h) ▸ h0
  rename_i hinpt
  split at h
  all_goals try exact Except.noConfusion h
  all_goals try exact (Except.ok.inj h) ▸ h0
  rename_i inf
  split at h
  all_goals try exact (Except.ok.inj h) ▸ h0
  rename_i hnofield
  obtain rfl := (Except.ok.inj h).symm
  have htype2 : List.lookup "type" (Json.setKey bf "input"
      (Json.obj (injectBlockInput mem file id inf))) =
      some (Json.str "tool_use") := by
    rw [lookup_setKey_ne _ _ _ _ (by decide)]
    exact htype
  have hid2 : List.lookup "id" (Json.setKey bf "input"
      (Json.obj (injectBlockInput mem file id inf))) = some id := by
    rw [lookup_setKey_ne _ _ _ _ (by decide)]
    exact hid
  have hinp2 : List.lookup "input" (Json.setKey bf "input"
      (Json.obj (injectBlockInput mem file id inf))) =
      some (Json.obj (injectBlockInput mem file id inf)) :=
    lookup_setKey_self _ _ _
  rcases injectBlockInput_cases mem file id inf with heq | hk | hk
  · rw [heq] at htype2 hid2 hinp2
    simp only [heq]
    simp [injectBlock, htype2, hid2, hinp2, Json.truthy, if_neg hidt,
      if_neg hnofield, heq, setKey_setKey_same]
  · simp [injectBlock, htype2, hid2, hinp2, Json.truthy, if_neg hidt, hk]
  · simp [injectBlock, htype2, hid2, hinp2, Json.truthy, if_neg hidt, hk]

theorem injectBlocks_idem (mem file : List (String × Json))
    (bs bs2 : List Json) (h : injectBlocks mem file bs = .ok bs2) :
    injectBlocks mem file bs2 = .ok bs2 := by
  induction bs generalizing bs2 with
  | nil =>
    obtain rfl := (Except.ok.inj h).symm
    rfl
  | cons b tl ih =>
    unfold injectBlocks at h
    split at h
    · exact absurd h (by simp)
    · rename_i b2 heq1
      split at h
      · exact absurd h (by simp)
      · rename_i tl2 heq2
        obtain rfl := (Except.ok.inj h).symm
        have h1 := injectBlock_idem mem file b b2 heq1
        have h2 := ih tl2 heq2
        unfold injectBlocks
        simp only [h1, h2]

theorem injectMessage_idem (mem file : List (String × Json)) (m m2 : Json)
    (h : injectMessage mem file m = .ok m2) :
    injectMessage mem file m2 = .ok m2 := by
  have h0 := h
  unfold injectMessage at h
  split at h
  · exact absurd h (by simp)
  · rename_i mf
    split at h
    · rename_i hrole
      split at h
      · rename_i blocks hcontent
        split at h
        · exact absurd h (by simp)
        · rename_i blocks2 hblocks
          obtain rfl := (Except.ok.inj h).symm
          have h1 := injectBlocks_idem mem file blocks blocks2 hblocks
          have hrole2 : List.lookup "role" (Json.setKey mf "content"
              (Json.arr blocks2)) = some (Json.str "assistant") := by
            rw [lookup_setKey_ne _ _ _ _ (by decide)]
            exact hrole
          have hcontent2 : List.lookup "content" (Json.setKey mf "content"
              (Json.arr blocks2)) = some (Json.arr blocks2) :=
            lookup_setKey_self _ _ _
          unfold injectMessage
          simp only [hrole2, hcontent2, h1, setKey_setKey_same]
      · exact (Except.ok.inj h) ▸ h0
    · exact (Except.ok.inj h) ▸ h0
  · exact (Except.ok.inj h) ▸ h0

theorem injectMessages_idem (mem file : List (String × Json))
    (ms ms2 : List Json) (h : injectMessages mem file ms = .ok ms2) :
    injectMessages mem file ms2 = .ok ms2 := by
  induction ms generalizing ms2 with
  | nil =>
    obtain rfl := (Except.ok.inj h).symm
    rfl
  | cons m tl ih =>
    unfold injectMessages at h
    split at h
    · exact absurd h (by simp)
    · rename_i m2 heq1
      split at h
      · exact absurd h (by simp)
      · rename_i tl2 heq2
        obtain rfl := (Except.ok.inj h).symm
        have h1 := injectMessage_idem mem file m m2 heq1
        have h2 := ih tl2 heq2
        unfold injectMessages
        simp only [h1, h2]

/-- C7: running `injectMetadataIntoHistory` twice produces the same result
as running it once (a body produced by a successful pass is a fixed
point), and a `tool_use` block whose input already contains `_intent` or
`_displayName` is never modified by the per-block pass. -/
theorem injectMetadataIntoHistory_idem (mem file : List (String × Json))
    (body body2 : Json)
    (h : injectMetadataIntoHistory mem file body = .ok body2) :
    injectMetadataIntoHistory mem file body2 = .ok body2 ∧
    ∀ bf inf, List.lookup "input" bf = some (Json.obj inf) →
      (Json.hasKey inf "_intent" || Json.hasKey inf "_displayName") = true →
      injectBlock mem file (Json.obj bf) = .ok (Json.obj bf) := by
  constructor
  · have h0 := h
    unfold injectMetadataIntoHistory at h
    split at h
    · exact absurd h (by simp)
    · rename_i bf
      split at h
      · exact (Except.ok.inj h) ▸ h0
      · rename_i ms hms
        split at h
        · exact (Except.ok.inj h) ▸ h0
        · rename_i hmst
          split at h
          · rename_i msgs
            split at h
            · exact absurd h (by simp)
            · rename_i msgs2 hmsgs
              obtain rfl := (Except.ok.inj h).symm
              have h1 := injectMessages_idem mem file msgs msgs2 hmsgs
              have hm2 : List.lookup "messages" (Json.setKey bf "messages"
                  (Json.arr msgs2)) = some (Json.arr msgs2) :=
                lookup_setKey_self _ _ _
              simp [injectMetadataIntoHistory, hm2, Json.truthy, h1,
                setKey_setKey_same]
          · exact (Except.ok.inj h) ▸ h0
          · exact absurd h (by simp)
    · exact (Except.ok.inj h) ▸ h0
  · intro bf inf hinput hfield
    simp only [injectBlock]
    split
    · rename_i htype2
      split
      · rfl
      · rename_i id hid
        split
        · rfl
        · simp [hinput, Json.truthy, hfield]
    · rfl

/-- Closed instance of the C7 theorem: one assistant message with a
`tool_use` block that lacks both metadata fields; the in-memory map
supplies the metadata, and the re-injected body is a fixed point; the
skip conjunct is instantiated on a block already carrying `_intent`. -/
theorem injectMetadataIntoHistory_idem_witness :
    injectMetadataIntoHistory
      [("toolu_01", Json.obj [("intent", Json.str "x")])] []
      (Json.obj [("messages", Json.arr [Json.obj
        [("role", Json.str "assistant"),
         ("content", Json.arr [Json.obj
           [("type", Json.str "tool_use"), ("id", Json.str "toolu_01"),
            ("input", Json.obj [("foo", Json.str "bar"),
              ("_intent", Json.str "x")])]])]])]) =
      Except.ok (Json.obj [("messages", Json.arr [Json.obj
        [("role", Json.str "assistant"),
         ("content", Json.arr [Json.obj
           [("type", Json.str "tool_use"), ("id", Json.str "toolu_01"),
            ("input", Json.obj [("foo", Json.str "bar"),
              ("_intent", Json.str "x")])]])]])]) ∧
    injectBlock [("toolu_01", Json.obj [("intent", Json.str "x")])] []
      (Json.obj [("type", Json.str "tool_use"),
        ("id", Json.str "toolu_01"),
        ("input", Json.obj [("foo", Json.str "bar"),
          ("_intent", Json.str "x")])]) =
      Except.ok (Json.obj [("type", Json.str "tool_use"),
        ("id", Json.str "toolu_01"),
        ("input", Json.obj [("foo", Json.str "bar"),
          ("_intent", Json.str "x")])]) := by
  have hmain := injectMetadataIntoHistory_idem
    [("toolu_01", Json.obj [("intent", Json.str "x")])] []
    (Json.obj [("messages", Json.arr [Json.obj
      [("role", Json.str "assistant"),
       ("content", Json.arr [Json.obj
         [("type", Json.str "tool_use"), ("id", Json.str "toolu_01"),
          ("input", Json.obj [("foo", Json.str "bar"),
            ("_intent", Json.str "x")])]])]])])
    (Json.obj [("messages", Json.arr [Json.obj
      [("role", Json.str "assistant"),
       ("content", Json.arr [Json.obj
         [("type", Json.str "tool_use"), ("id", Json.str "toolu_01"),
          ("input", Json.obj [("foo", Json.str "bar"),
            ("_intent", Json.str "x")])]])]])])
    (by rfl)
  exact ⟨hmain.1, hmain.2
    [("type", Json.str "tool_use"), ("id", Json.str "toolu_01"),
     ("input", Json.obj [("foo", Json.str "bar"),
       ("_intent", Json.str "x")])]
    [("foo", Json.str "bar"), ("_intent", Json.str "x")]
    (by rfl) (by rfl)⟩

/-! ## Model of the OAuth callback server (`CraftOAuth`)

`startCallbackServer` installs a request handler and binds the first free
port in `CALLBACK_PORT_START..CALLBACK_PORT_END`.  The handler reads
`code`, `state` and `error` from the callback URL's query string
(`URLSearchParams.get` returns `null` for a missing parameter, modelled as
`Option String`), and rejects or resolves the flow.  Binding is modelled
by an environment function giving each port's outcome. -/

def CALLBACK_PORT_START : Nat := 8914

def CALLBACK_PORT_END : Nat := 8924

def CALLBACK_PATH : String := "/oauth/callback"

/-- JS truthiness of a `string | null` query parameter. -/
def strTruthy : Option String → Bool
  | none => false
  | some s => s != ""

/-- A callback HTTP request, reduced to the data the handler reads. -/
structure CallbackRequest where
  pathname : String
  code : Option String
  state : Option String
  error : Option String

/-- What the handler does with a request: reject the flow with an error
message (`rejectCode(new Error(msg))`), resolve it with the authorization
code, or answer 404 without touching the flow. -/
inductive CallbackResult where
  | rejected (message : String)
  | success (code : String)
  | notFound
  deriving DecidableEq

/-- The request handler of `startCallbackServer`: on the callback path it
checks `error`, then `state !== expectedState`, then `!code`, in that
order. -/
def handleCallback (expectedState : String) (req : CallbackRequest) :
    CallbackResult :=
  if req.pathname = CALLBACK_PATH then
    if strTruthy req.error then
      .rejected ("OAuth error: " ++ req.error.getD "")
    else if req.state ≠ some expectedState then
      .rejected "OAuth state mismatch"
    else if strTruthy req.code = false then
      .rejected "No authorization code"
    else
      .success (req.code.getD "")
  else .notFound

/-- Outcome of `candidate.listen(port, 'localhost')` for one port. -/
inductive BindOutcome where
  | ok
  | addrInUse
  | otherErr (msg : String)
  deriving DecidableEq

/-- The port loop of `startCallbackServer`: try each candidate in order,
advance past a port only on `EADDRINUSE`, abort on any other error. -/
def tryPorts (bind : Nat → BindOutcome) : List Nat → Except String Nat
  | [] => .error
      "All OAuth callback ports (8914-8924) are in use. Please restart the application."
  | p :: ps =>
    match bind p with
    | .ok => .ok p
    | .addrInUse => tryPorts bind ps
    | .otherErr e => .error e

/-- The port `startCallbackServer` ends up bound to (its `for` loop over
`CALLBACK_PORT_START..CALLBACK_PORT_END`). -/
def startCallbackServerPort (bind : Nat → BindOutcome) : Except String Nat :=
  tryPorts bind
    (List.range' CALLBACK_PORT_START
      (CALLBACK_PORT_END + 1 - CALLBACK_PORT_START))

/-- Decimal rendering of a port number. -/
def natStr (n : Nat) : String := String.mk (natDigits n)

/-- The `redirect_uri` built inside `registerClient` (step 4). -/
def registerClientRedirectUri (port : Nat) : String :=
  "http://localhost:" ++ natStr port ++ CALLBACK_PATH

/-- The `redirect_uri` built for the authorization URL (step 5). -/
def authUrlRedirectUri (port : Nat) : String :=
  "http://localhost:" ++ natStr port ++ CALLBACK_PATH

theorem tryPorts_busy_then_ok (bind : Nat → BindOutcome) :
    ∀ (l s t : Nat), s ≤ t → t < s + l →
    (∀ p, s ≤ p → p < t → bind p = .addrInUse) → bind t = .ok →
    tryPorts bind (List.range' s l) = .ok t := by
  intro l
  induction l with
  | zero => intro s t h1 h2; omega
  | succ n ih =>
    intro s t h1 h2 hbusy hfree
    rw [List.range'_succ]
    by_cases hst : s = t
    · subst hst
      simp [tryPorts, hfree]
    · have hlt : s < t := by omega
      simp only [tryPorts, hbusy s (le_refl s) hlt]
      exact ih (s + 1) t (by omega) (by omega)
        (fun p hp1 hp2 => hbusy p (by omega) hp2) hfree

theorem tryPorts_busy_then_err (bind : Nat → BindOutcome) :
    ∀ (l s t : Nat) (e : String), s ≤ t → t < s + l →
    (∀ p, s ≤ p → p < t → bind p = .addrInUse) → bind t = .otherErr e →
    tryPorts bind (List.range' s l) = .error e := by
  intro l
  induction l with
  | zero => intro s t e h1 h2; omega
  | succ n ih =>
    intro s t e h1 h2 hbusy herr
    rw [List.range'_succ]
    by_cases hst : s = t
    · subst hst
      simp [tryPorts, herr]
    · have hlt : s < t := by omega
      simp only [tryPorts, hbusy s (le_refl s) hlt]
      exact ih (s + 1) t e (by omega) (by omega)
        (fun p hp1 hp2 => hbusy p (by omega) hp2) herr

/-- C5: when ports `CALLBACK_PORT_START..N` are occupied and `N+1` (still
in range) is free, the loop binds exactly port `N+1`; the `redirect_uri`
strings built for client registration and for the authorization URL agree
and embed that bound port's decimal digits; and an error other than
address-in-use on a candidate port aborts the whole flow with that
error. -/
theorem callback_port_skips_to_free (bind : Nat → BindOutcome) (N : Nat)
    (hlo : CALLBACK_PORT_START ≤ N + 1) (hhi : N + 1 ≤ CALLBACK_PORT_END)
    (hbusy : ∀ p, CALLBACK_PORT_START ≤ p → p ≤ N → bind p = .addrInUse)
    (hfree : bind (N + 1) = .ok) :
    startCallbackServerPort bind = .ok (N + 1) ∧
    registerClientRedirectUri (N + 1) = authUrlRedirectUri (N + 1) ∧
    (natStr (N + 1)).data <:+:
      (registerClientRedirectUri (N + 1)).data ∧
    (∀ (bind2 : Nat → BindOutcome) (M : Nat) (e : String),
      CALLBACK_PORT_START ≤ M → M ≤ CALLBACK_PORT_END →
      (∀ p, CALLBACK_PORT_START ≤ p → p < M → bind2 p = .addrInUse) →
      bind2 M = .otherErr e →
      startCallbackServerPort bind2 = .error e) := by
  refine ⟨?_, rfl, ?_, ?_⟩
  · exact tryPorts_busy_then_ok bind _ CALLBACK_PORT_START (N + 1) hlo
      (by simp only [CALLBACK_PORT_START, CALLBACK_PORT_END] at hlo hhi ⊢
          omega)
      (fun p hp1 hp2 => hbusy p hp1 (by omega)) hfree
  · exact ⟨"http://localhost:".data, CALLBACK_PATH.data, by
      simp [registerClientRedirectUri, String.data_append]⟩
  · intro bind2 M e hm1 hm2 hbusy2 herr
    exact tryPorts_busy_then_err bind2 _ CALLBACK_PORT_START M e hm1
      (by simp only [CALLBACK_PORT_START, CALLBACK_PORT_END] at hm1 hm2 ⊢
          omega)
      hbusy2 herr

/-- Closed instance of the C5 theorem: ports 8914 and 8915 occupied, 8916
free, so the server binds 8916 and both redirect URIs embed `8916`. -/
theorem callback_port_skips_to_free_witness :
    startCallbackServerPort (fun p =>
      if p < 8916 then .addrInUse
      else if p = 8916 then .ok else .addrInUse) = .ok 8916 ∧
    registerClientRedirectUri 8916 = authUrlRedirectUri 8916 ∧
    (natStr 8916).data <:+: (registerClientRedirectUri 8916).data ∧
    (∀ (bind2 : Nat → BindOutcome) (M : Nat) (e : String),
      CALLBACK_PORT_START ≤ M → M ≤ CALLBACK_PORT_END →
      (∀ p, CALLBACK_PORT_START ≤ p → p < M → bind2 p = .addrInUse) →
      bind2 M = .otherErr e →
      startCallbackServerPort bind2 = .error e) :=
  callback_port_skips_to_free
    (fun p => if p < 8916 then .addrInUse
      else if p = 8916 then .ok else .addrInUse)
    8915 (by decide) (by decide)
    (fun p h1 h2 => by
      have hp : p < 8916 := by
        simp only [CALLBACK_PORT_START] at h1
        omega
      simp only [if_pos hp])
    (by decide)

theorem oauthErrMsg_ne_state (e : String) :
    "OAuth error: " ++ e ≠ "OAuth state mismatch" := by
  intro heq
  have h1 := congrArg (fun s => s.data.get? 6) heq
  simp only [String.data_append] at h1
  rw [List.get?_append (by decide)] at h1
  exact absurd h1 (by decide)

theorem oauthErrMsg_ne_code (e : String) :
    "OAuth error: " ++ e ≠ "No authorization code" := by
  intro heq
  have h1 := congrArg (fun s => s.data.get? 0) heq
  simp only [String.data_append] at h1
  rw [List.get?_append (by decide)] at h1
  exact absurd h1 (by decide)

/-- C4 (amended): on the callback path the handler checks the `error`
parameter first, then the state, then the presence of the code — a truthy
`error` wins over a state mismatch, which wins over a missing code — and
the three rejection messages are pairwise distinct. -/
theorem callback_rejection_priority (expectedState : String)
    (req : CallbackRequest) (hpath : req.pathname = CALLBACK_PATH) :
    (strTruthy req.error = true →
      ∃ e, req.error = some e ∧
        handleCallback expectedState req =
          .rejected ("OAuth error: " ++ e)) ∧
    (strTruthy req.error = false → req.state ≠ some expectedState →
      handleCallback expectedState req = .rejected "OAuth state mismatch") ∧
    (strTruthy req.error = false → req.state = some expectedState →
      strTruthy req.code = false →
      handleCallback expectedState req =
        .rejected "No authorization code") ∧
    (∀ e, "OAuth error: " ++ e ≠ "OAuth state mismatch" ∧
      "OAuth error: " ++ e ≠ "No authorization code") ∧
    ("OAuth state mismatch" : String) ≠ "No authorization code" := by
  obtain ⟨pn, c, st, er⟩ := req
  simp only at hpath
  subst hpath
  refine ⟨?_, ?_, ?_, fun e => ⟨oauthErrMsg_ne_state e, oauthErrMsg_ne_code e⟩,
    by decide⟩
  · intro he
    match er with
    | none => exact absurd he (by simp [strTruthy])
    | some e => exact ⟨e, rfl, by simp [handleCallback, he]⟩
  · intro he hst
    simp [handleCallback, he, hst]
  · intro he hst hc
    simp [handleCallback, he, hst, hc]
    exact hst

/-- Closed instance of the C4 amended theorem, at a request carrying a
truthy `error` and a mismatched state. -/
theorem callback_rejection_priority_witness :
    (strTruthy (some "access_denied") = true →
      ∃ e, some "access_denied" = some e ∧
        handleCallback "good"
          ⟨CALLBACK_PATH, some "abc", some "bad", some "access_denied"⟩ =
          .rejected ("OAuth error: " ++ e)) ∧
    (strTruthy (some "access_denied") = false →
      some "bad" ≠ some "good" →
      handleCallback "good"
        ⟨CALLBACK_PATH, some "abc", some "bad", some "access_denied"⟩ =
        .rejected "OAuth state mismatch") ∧
    (strTruthy (some "access_denied") = false → some "bad" = some "good" →
      strTruthy (some "abc") = false →
      handleCallback "good"
        ⟨CALLBACK_PATH, some "abc", some "bad", some "access_denied"⟩ =
        .rejected "No authorization code") ∧
    (∀ e, "OAuth error: " ++ e ≠ "OAuth state mismatch" ∧
      "OAuth error: " ++ e ≠ "No authorization code") ∧
    ("OAuth state mismatch" : String) ≠ "No authorization code" :=
  callback_rejection_priority "good"
    ⟨CALLBACK_PATH, some "abc", some "bad", some "access_denied"⟩ rfl

/-- C4 counterexample to the claimed priority: when the callback carries
both a truthy `error` parameter and a mismatched `state`, the handler
rejects with the OAuth-error reason — the `error` check runs before the
state check, not after it as the claim orders them. -/
theorem callback_error_beats_state_mismatch :
    handleCallback "good"
      ⟨CALLBACK_PATH, some "abc", some "bad", some "access_denied"⟩ =
      .rejected "OAuth error: access_denied" ∧
    handleCallback "good"
      ⟨CALLBACK_PATH, some "abc", some "bad", some "access_denied"⟩ ≠
      .rejected "OAuth state mismatch" := by
  constructor
  · rfl
  · intro h
    exact absurd h (by decide)

/-! ## Model of `createSseMetadataStrippingStream`

The transform splits incoming text on `'\n'`, keeps the final (possibly
incomplete) segment in `lineBuffer`, and interprets complete lines:
`event:`/`data:` lines set the pending event, a blank line fires
`processEvent`.  `processEvent` buffers `input_json_delta` payloads of
tracked `tool_use` blocks and re-emits everything else through
`emitSseEvent`, which always frames an event as
`event: T\ndata: D\n\n`.  Chunks are modelled as character lists (the
streaming `TextDecoder` makes byte-level chunk boundaries inside a UTF-8
character invisible to this char-level machine).  A thrown `TypeError`
(property access on a `null` payload) errors the whole stream: it is
recorded in `errored`, and an errored machine ignores further input.
`Map` insertion-order semantics are modelled by in-place
update-or-append association lists; `Date.now()` is the parameter
`now`. -/

/-- JS ASCII whitespace as used by `trim` and `\s` here. -/
def jsWs (c : Char) : Bool :=
  c = ' ' || c = '\t' || c = '\n' || c = '\r' ||
    c = Char.ofNat 11 || c = Char.ofNat 12

/-- `String.prototype.trim` (left part). -/
def trimL (s : List Char) : List Char := s.dropWhile jsWs

/-- `String.prototype.trim`. -/
def jsTrim (s : List Char) : List Char :=
  ((trimL s).reverse.dropWhile jsWs).reverse

/-- `text.split('\n')`: always at least one part; no part contains
`'\n'`. -/
def splitNl : List Char → List (List Char)
  | [] => [[]]
  | c :: t =>
    if c = '\n' then [] :: splitNl t
    else
      match splitNl t with
      | [] => [[c]]
      | l :: ls => (c :: l) :: ls

/-- `Map.prototype.set`: update in place or append (insertion order). -/
def mapSet {α β : Type} [DecidableEq α] :
    List (α × β) → α → β → List (α × β)
  | [], k, v => [(k, v)]
  | (k', v') :: t, k, v =>
    if k' = k then (k', v) :: t else (k', v') :: mapSet t k v

/-- `Map.prototype.get`. -/
def mapGet {α β : Type} [DecidableEq α] : List (α × β) → α → Option β
  | [], _ => none
  | (k', v) :: t, k => if k' = k then some v else mapGet t k

/-- `Map.prototype.delete`. -/
def mapDelete {α β : Type} [DecidableEq α] :
    List (α × β) → α → List (α × β)
  | [], _ => []
  | (k', v) :: t, k => if k' = k then t else (k', v) :: mapDelete t k

/-- A tracked `tool_use` content block (`trackedBlocks` map value);
`id` and `name` keep whatever JSON values the start event carried. -/
structure TrackedToolBlock where
  id : Json
  name : Json
  index : Option Json
  bufferedJson : List Char
  deriving DecidableEq

/-- The per-stream state read and written by `processEvent` (everything
except the line buffer, which only the chunk splitter touches). -/
structure SseCore where
  currentEventType : List Char
  currentData : List Char
  trackedBlocks : List (Option Json × TrackedToolBlock)
  metaStore : List (Json × ToolMetadata)
  output : List Char
  eventCount : Nat
  errored : Option String
  deriving DecidableEq

/-- The whole transform state. -/
structure SseState where
  core : SseCore
  lineBuffer : List Char
  deriving DecidableEq

def initSseCore : SseCore := ⟨[], [], [], [], [], 0, none⟩

def initSseState : SseState := ⟨initSseCore, []⟩

/-- `event: ${T}\ndata: ${D}\n\n` — the bytes `emitSseEvent` enqueues. -/
def sseFrame (T D : List Char) : List Char :=
  "event: ".data ++ T ++ '\n' :: "data: ".data ++ D ++ ['\n', '\n']

/-- `emitSseEvent`. -/
def emitSseEvent (T D : List Char) (c : SseCore) : SseCore :=
  {c with output := c.output ++ sseFrame T D}

/-- The synthetic single-delta event object built by `emitBufferedBlock`
(a JS object literal `{type, index, delta}`; an `undefined` index is
omitted by `JSON.stringify`). -/
def deltaEventJson (idx : Option Json) (partialJson : List Char) : Json :=
  .obj ([("type", Json.str "content_block_delta")] ++
    (match idx with | some v => [("index", v)] | none => []) ++
    [("delta", Json.obj [("type", Json.str "input_json_delta"),
      ("partial_json", Json.str (String.mk partialJson))])])

/-- `typeof parsed[k] === 'string' ? parsed[k] : undefined`. -/
def extractStrField (parsed : Json) (k : String) : Option String :=
  match Json.getField? parsed k with
  | some (.str s) => some s
  | _ => none

/-- `delete parsed._intent; delete parsed._displayName` (a no-op on
non-objects, as JS `delete` is on primitives). -/
def deleteMetaFields (parsed : Json) : Json :=
  match parsed with
  | .obj pf => Json.obj (Json.delKey (Json.delKey pf "_intent") "_displayName")
  | v => v

/-- `emitBufferedBlock`: nothing for an empty buffer; otherwise parse the
buffered JSON, store truthy string metadata under the block's id, delete
the metadata fields and re-emit one clean `input_json_delta`; on a parse
failure re-emit the raw buffer.  A buffer parsing to JSON `null` throws
a `TypeError` at `typeof parsed._intent`, but that access sits inside
the same `try`, so its `catch` takes the exact raw-fallback path a parse
failure does — the stream keeps going. -/
def emitBufferedBlock (now : Int) (block : TrackedToolBlock)
    (idx : Option Json) (c : SseCore) : SseCore :=
  if block.bufferedJson = [] then c
  else
    match parseJson block.bufferedJson with
    | some parsed =>
      if parsed = Json.null then
        emitSseEvent "content_block_delta".data
          (stringify (deltaEventJson idx block.bufferedJson)) c
      else
        emitSseEvent "content_block_delta".data
          (stringify (deltaEventJson idx (stringify (deleteMetaFields parsed))))
          (if strTruthy (extractStrField parsed "_intent") ||
              strTruthy (extractStrField parsed "_displayName") then
            {c with metaStore :=
              (mapSet c.metaStore block.id
                (⟨extractStrField parsed "_intent",
                  extractStrField parsed "_displayName", now⟩ : ToolMetadata))}
          else c)
    | none =>
      emitSseEvent "content_block_delta".data
        (stringify (deltaEventJson idx block.bufferedJson)) c

/-- The `contentBlock?.type === 'tool_use' && contentBlock.id &&
contentBlock.name != null` tracking condition of `content_block_start`:
`some (id, name)` when the block is to be tracked. -/
def detectToolUse (data : Json) : Option (Json × Json) :=
  match Json.getField? data "content_block" with
  | some cb =>
    match Json.getField? cb "type" with
    | some (.str "tool_use") =>
      match Json.getField? cb "id" with
      | some idv =>
        if idv.truthy then
          match Json.getField? cb "name" with
          | some nv => if nv = Json.null then none else some (idv, nv)
          | none => none
        else none
      | none => none
    | _ => none
  | none => none

/-- `processEvent`. -/
def processEvent (now : Int) (T D : List Char) (c0 : SseCore) : SseCore :=
  let c := {c0 with eventCount := c0.eventCount + 1}
  match parseJson D with
  | none => emitSseEvent T D c
  | some data =>
    if T = "content_block_start".data then
      if data = Json.null then
        {c with errored := some "TypeError: cannot read properties of null"}
      else
        match detectToolUse data with
        | some (idv, nv) =>
          emitSseEvent T D {c with trackedBlocks :=
            (mapSet c.trackedBlocks (Json.getField? data "index")
              (⟨idv, nv, Json.getField? data "index", []⟩ : TrackedToolBlock))}
        | none => emitSseEvent T D c
    else if T = "content_block_delta".data then
      if data = Json.null then
        {c with errored := some "TypeError: cannot read properties of null"}
      else
        match Json.getField? data "delta" with
        | some d =>
          if Json.getField? d "type" = some (Json.str "input_json_delta")
          then
            match mapGet c.trackedBlocks (Json.getField? data "index") with
            | some block =>
              {c with trackedBlocks :=
                (mapSet c.trackedBlocks (Json.getField? data "index")
                  {block with bufferedJson :=
                    (block.bufferedJson ++
                      (match Json.getField? d "partial_json" with
                       | none => []
                       | some Json.null => []
                       | some (Json.str s) => s.data
                       | some v => (jsPropKey v).data))})}
            | none => emitSseEvent T D c
          else emitSseEvent T D c
        | none => emitSseEvent T D c
    else if T = "content_block_stop".data then
      if data = Json.null then
        {c with errored := some "TypeError: cannot read properties of null"}
      else
        match mapGet c.trackedBlocks (Json.getField? data "index") with
        | some block =>
          match emitBufferedBlock now block (Json.getField? data "index")
            {c with trackedBlocks :=
              mapDelete c.trackedBlocks (Json.getField? data "index")} with
          | c2 => if c2.errored.isSome then c2 else emitSseEvent T D c2
        | none => emitSseEvent T D c
    else emitSseEvent T D c

/-- One line of the `transform`/`flush` loop body. -/
def processLine (now : Int) (c : SseCore) (line : List Char) : SseCore :=
  if c.errored.isSome then c
  else
    match jsTrim line with
    | [] =>
      if c.currentEventType ≠ [] ∧ c.currentData ≠ [] then
        match processEvent now c.currentEventType c.currentData c with
        | c1 =>
          if c1.errored.isSome then c1
          else {c1 with currentEventType := [], currentData := []}
      else {c with currentEventType := [], currentData := []}
    | trimmed =>
      if listStartsWith trimmed "event:".data ∧
          trimL (trimmed.drop 6) ≠ [] then
        {c with currentEventType := jsTrim (trimL (trimmed.drop 6))}
      else if listStartsWith trimmed "data:".data ∧
          trimL (trimmed.drop 5) ≠ [] then
        {c with currentData := trimL (trimmed.drop 5)}
      else c

/-- The last part of a split (`lines.pop()`). -/
def lastSeg : List (List Char) → List Char
  | [] => []
  | [x] => x
  | _ :: y :: t => lastSeg (y :: t)

/-- `transform(chunk)`: prepend the line buffer, split on `'\n'`, keep
the final segment, process the complete lines. -/
def feed (now : Int) (st : SseState) (chunk : List Char) : SseState :=
  if st.core.errored.isSome then st
  else
    ⟨(splitNl (st.lineBuffer ++ chunk)).dropLast.foldl (processLine now)
        st.core,
     lastSeg (splitNl (st.lineBuffer ++ chunk))⟩

/-- `flush()`: process a leftover non-whitespace line buffer (including a
final half-framed event), then emit every still-tracked block's buffer in
insertion order and clear the state. -/
def flushSse (now : Int) (st : SseState) : SseState :=
  if st.core.errored.isSome then st
  else
    match (if jsTrim st.lineBuffer ≠ [] then
        match (splitNl st.lineBuffer).foldl (processLine now) st.core with
        | c2 =>
          if c2.errored.isSome then c2
          else if c2.currentEventType ≠ [] ∧ c2.currentData ≠ [] then
            processEvent now c2.currentEventType c2.currentData c2
          else c2
      else st.core) with
    | c1 =>
      if c1.errored.isSome then ⟨c1, st.lineBuffer⟩
      else
        match c1.trackedBlocks.foldl (fun s kv =>
          if s.errored.isSome then s
          else emitBufferedBlock now kv.2 kv.1 s) c1 with
        | c3 =>
          if c3.errored.isSome then ⟨c3, st.lineBuffer⟩
          else ⟨{c3 with trackedBlocks := []}, []⟩

/-- Run the whole pipe: feed each chunk, then flush. -/
def runSse (now : Int) (chunks : List (List Char)) : SseState :=
  flushSse now (chunks.foldl (feed now) initSseState)

/-! ### Reading an output stream back into events (for the round-trip
claims): the same `event:`/`data:`/blank-line rules, collecting the
`(type, data)` pairs instead of transforming them. -/

structure SseReader where
  currentEventType : List Char
  currentData : List Char
  events : List (List Char × List Char)

def readLine (r : SseReader) (line : List Char) : SseReader :=
  match jsTrim line with
  | [] =>
    if r.currentEventType ≠ [] ∧ r.currentData ≠ [] then
      ⟨[], [], r.events ++ [(r.currentEventType, r.currentData)]⟩
    else ⟨[], [], r.events⟩
  | trimmed =>
    if listStartsWith trimmed "event:".data ∧
        trimL (trimmed.drop 6) ≠ [] then
      ⟨jsTrim (trimL (trimmed.drop 6)), r.currentData, r.events⟩
    else if listStartsWith trimmed "data:".data ∧
        trimL (trimmed.drop 5) ≠ [] then
      ⟨r.currentEventType, trimL (trimmed.drop 5), r.events⟩
    else r

/-- The complete events of an SSE byte stream. -/
def sseEvents (s : List Char) : List (List Char × List Char) :=
  ((splitNl s).foldl readLine ⟨[], [], []⟩).events

/-- Concatenate the `input_json_delta` payloads addressed to content
block `idx` — the final tool input JSON text a reader of the stream
assembles for that block. -/
def inputJsonFor (idx : Json) : List (List Char × List Char) → List Char
  | [] => []
  | (T, D) :: rest =>
    (if T = "content_block_delta".data then
      match parseJson D with
      | some data =>
        if Json.getField? data "index" = some idx then
          match Json.getField? data "delta" with
          | some d =>
            match Json.getField? d "type" with
            | some (.str "input_json_delta") =>
              match Json.getField? d "partial_json" with
              | some (.str s) => s.data
              | _ => []
            | _ => []
          | none => []
        else []
      | none => []
    else []) ++ inputJsonFor idx rest

/-! ### The C1 synthetic stream -/

def c1StartData : String :=
  "\x7b\"type\":\"content_block_start\",\"index\":0,\"content_block\":\x7b\"type\":\"tool_use\",\"id\":\"toolu_01\",\"name\":\"mcp__x\",\"input\":\x7b\x7d\x7d\x7d"

def c1Delta1Data : String :=
  "\x7b\"type\":\"content_block_delta\",\"index\":0,\"delta\":\x7b\"type\":\"input_json_delta\",\"partial_json\":\"\x7b\\\"foo\\\":\\\"bar\\\",\\\"_in\"\x7d\x7d"

def c1Delta2Data : String :=
  "\x7b\"type\":\"content_block_delta\",\"index\":0,\"delta\":\x7b\"type\":\"input_json_delta\",\"partial_json\":\"tent\\\":\\\"x\\\",\\\"_displayName\\\":\\\"y\\\"\x7d\"\x7d\x7d"

def c1StopData : String := "\x7b\"type\":\"content_block_stop\",\"index\":0\x7d"

def c1MessageStopData : String := "\x7b\"type\":\"message_stop\"\x7d"

/-- A synthetic SSE stream with one tracked `tool_use` block whose two
buffered deltas concatenate to
`{"foo":"bar","_intent":"x","_displayName":"y"}`. -/
def sseC1Input : List Char :=
  sseFrame "content_block_start".data c1StartData.data ++
  sseFrame "content_block_delta".data c1Delta1Data.data ++
  sseFrame "content_block_delta".data c1Delta2Data.data ++
  sseFrame "content_block_stop".data c1StopData.data ++
  sseFrame "message_stop".data c1MessageStopData.data

/-- The two buffered delta fragments do concatenate to the full metadata-
carrying JSON (sanity of the synthetic stream). -/
theorem c1_buffered_json :
    "\x7b\"foo\":\"bar\",\"_in".data ++
      "tent\":\"x\",\"_displayName\":\"y\"\x7d".data =
      "\x7b\"foo\":\"bar\",\"_intent\":\"x\",\"_displayName\":\"y\"\x7d".data := by
  decide

set_option maxRecDepth 20000 in
/-- C1: running the transform over the synthetic stream, the output
parsed back into events assembles final tool input `{"foo":"bar"}` for
block index 0 — an object without `_intent` or `_displayName` — and the
metadata store afterwards maps the block's id `toolu_01` to intent `x`
and displayName `y` (with the injected clock value as timestamp). -/
theorem sse_stream_strips_metadata :
    parseJson (inputJsonFor (Json.num 0)
      (sseEvents ((runSse 0 [sseC1Input]).core.output))) =
      some (Json.obj [("foo", Json.str "bar")]) ∧
    Json.hasKey [("foo", Json.str "bar")] "_intent" = false ∧
    Json.hasKey [("foo", Json.str "bar")] "_displayName" = false ∧
    mapGet (runSse 0 [sseC1Input]).core.metaStore (Json.str "toolu_01") =
      some ⟨some "x", some "y", 0⟩ := by
  refine ⟨by decide, by decide, by decide, by decide⟩

/-- C10: at `content_block_stop` for a tracked block whose delta buffer
is empty, the transform emits no synthetic `content_block_delta` at all:
the output grows by exactly the re-emitted original stop event, the block
is untracked, and nothing else changes; likewise `emitBufferedBlock`
(also called per leftover block at flush) is the identity on an empty
buffer. -/
theorem empty_buffer_stop_emits_no_delta (now : Int) (c : SseCore)
    (D : List Char) (data : Json) (block : TrackedToolBlock)
    (hD : parseJson D = some data) (hnn : data ≠ Json.null)
    (hblk : mapGet c.trackedBlocks (Json.getField? data "index") =
      some block)
    (hempty : block.bufferedJson = []) (herr : c.errored = none) :
    processEvent now "content_block_stop".data D c =
      {c with
        eventCount := c.eventCount + 1,
        trackedBlocks :=
          (mapDelete c.trackedBlocks (Json.getField? data "index")),
        output := (c.output ++ sseFrame "content_block_stop".data D)} ∧
    (∀ (c2 : SseCore) (blk2 : TrackedToolBlock) (idx2 : Option Json),
      blk2.bufferedJson = [] → emitBufferedBlock now blk2 idx2 c2 = c2) := by
  constructor
  · unfold processEvent
    rw [hD]
    simp only [if_true, hblk, if_neg hnn]
    unfold emitBufferedBlock
    rw [if_pos hempty]
    simp [herr, emitSseEvent]
  · intro c2 blk2 idx2 h2
    unfold emitBufferedBlock
    rw [if_pos h2]

/-- Closed instance of the C10 theorem: a tracked block at index 0 with
an empty buffer receiving its `content_block_stop`. -/
theorem empty_buffer_stop_emits_no_delta_witness :
    processEvent 0 "content_block_stop".data c1StopData.data
      {initSseCore with trackedBlocks := [(some (Json.num 0),
        ⟨Json.str "toolu_01", Json.str "mcp__x", some (Json.num 0), []⟩)]} =
      {({initSseCore with trackedBlocks := [(some (Json.num 0),
          ⟨Json.str "toolu_01", Json.str "mcp__x", some (Json.num 0),
            []⟩)]} : SseCore) with
        eventCount := 0 + 1,
        trackedBlocks := mapDelete [(some (Json.num 0),
          (⟨Json.str "toolu_01", Json.str "mcp__x", some (Json.num 0),
            []⟩ : TrackedToolBlock))] (Json.getField?
              (Json.obj [("type", Json.str "content_block_stop"),
                ("index", Json.num 0)]) "index"),
        output := [] ++ sseFrame "content_block_stop".data
          c1StopData.data} ∧
    (∀ (c2 : SseCore) (blk2 : TrackedToolBlock) (idx2 : Option Json),
      blk2.bufferedJson = [] → emitBufferedBlock 0 blk2 idx2 c2 = c2) :=
  empty_buffer_stop_emits_no_delta 0
    {initSseCore with trackedBlocks := [(some (Json.num 0),
      ⟨Json.str "toolu_01", Json.str "mcp__x", some (Json.num 0), []⟩)]}
    c1StopData.data
    (Json.obj [("type", Json.str "content_block_stop"),
      ("index", Json.num 0)])
    ⟨Json.str "toolu_01", Json.str "mcp__x", some (Json.num 0), []⟩
    (by decide) (by decide) (by decide) rfl rfl

/-! ### C2: chunk-boundary invariance

The machine state after feeding chunks is compared up to the dead line
buffer of an errored stream (`sseObsEq`): an errored transform never
reads its line buffer again, and the enqueued output — which the claim
is about — lives in the core. -/

theorem splitNl_ne_nil (s : List Char) : splitNl s ≠ [] := by
  cases s with
  | nil => simp [splitNl]
  | cons c t =>
    simp only [splitNl]
    split
    · simp
    · split <;> simp

/-- Gluing of split parts across an append boundary. -/
def mergeHd (l : List Char) : List (List Char) → List (List Char)
  | [] => [l]
  | x :: xs => (l ++ x) :: xs

theorem lastSeg_cons_cons (x y : List Char) (t : List (List Char)) :
    lastSeg (x :: y :: t) = lastSeg (y :: t) := rfl

theorem lastSeg_append (l1 l2 : List (List Char)) (h : l2 ≠ []) :
    lastSeg (l1 ++ l2) = lastSeg l2 := by
  induction l1 with
  | nil => rfl
  | cons x t ih =>
    cases t with
    | nil =>
      cases l2 with
      | nil => exact absurd rfl h
      | cons y ys => rfl
    | cons y ys =>
      rw [List.cons_append, List.cons_append, lastSeg_cons_cons,
        ← List.cons_append]
      exact ih

theorem dropLast_append_ne_nil (l1 l2 : List (List Char)) (h : l2 ≠ []) :
    (l1 ++ l2).dropLast = l1 ++ l2.dropLast := by
  induction l1 with
  | nil => rfl
  | cons x t ih =>
    cases hl : t ++ l2 with
    | nil =>
      rcases List.append_eq_nil.mp hl with ⟨-, h2⟩
      exact absurd h2 h
    | cons y ys =>
      rw [List.cons_append, hl, List.dropLast_cons₂, ← hl, ih,
        ← List.cons_append]

theorem splitNl_no_nl (s : List Char) (h : '\n' ∉ s) : splitNl s = [s] := by
  induction s with
  | nil => rfl
  | cons c t ih =>
    simp only [splitNl]
    rw [if_neg (by intro hc; exact h (hc ▸ List.mem_cons_self c t))]
    rw [ih (fun hm => h (List.mem_cons_of_mem c hm))]

theorem splitNl_last_no_nl (s : List Char) :
    '\n' ∉ lastSeg (splitNl s) := by
  induction s with
  | nil => simp [splitNl, lastSeg]
  | cons c t ih =>
    simp only [splitNl]
    split
    · cases hs : splitNl t with
      | nil => exact absurd hs (splitNl_ne_nil t)
      | cons p ps =>
        rw [hs] at ih
        simpa [lastSeg_cons_cons] using ih
    · rename_i hc
      cases hs : splitNl t with
      | nil => exact absurd hs (splitNl_ne_nil t)
      | cons p ps =>
        rw [hs] at ih
        simp only []
        cases ps with
        | nil =>
          simp only [lastSeg] at ih ⊢
          intro hm
          rcases List.mem_cons.mp hm with h1 | h2
          · exact hc h1.symm
          · exact ih h2
        | cons q qs =>
          rw [lastSeg_cons_cons]
          rw [show lastSeg (p :: q :: qs) = lastSeg (q :: qs) from rfl] at ih
          exact ih

theorem splitNl_append (a b : List Char) :
    splitNl (a ++ b) =
      (splitNl a).dropLast ++ mergeHd (lastSeg (splitNl a)) (splitNl b) := by
  induction a with
  | nil =>
    cases hb : splitNl b with
    | nil => exact absurd hb (splitNl_ne_nil b)
    | cons x xs => simp [splitNl, mergeHd, lastSeg, hb]
  | cons c t ih =>
    cases hs : splitNl t with
    | nil => exact absurd hs (splitNl_ne_nil t)
    | cons p ps =>
      by_cases hc : c = '\n'
      · subst hc
        rw [List.cons_append,
          show splitNl ('\n' :: (t ++ b)) = [] :: splitNl (t ++ b) from by
            simp [splitNl],
          show splitNl ('\n' :: t) = [] :: splitNl t from by simp [splitNl],
          ih, hs, List.dropLast_cons₂, lastSeg_cons_cons, List.cons_append]
      · rw [List.cons_append,
          show splitNl (c :: (t ++ b)) =
            (match splitNl (t ++ b) with
             | [] => [[c]]
             | l :: ls => (c :: l) :: ls) from by simp [splitNl, hc],
          show splitNl (c :: t) =
            (match splitNl t with
             | [] => [[c]]
             | l :: ls => (c :: l) :: ls) from by simp [splitNl, hc],
          ih, hs]
        cases ps with
        | nil =>
          cases hb : splitNl b with
          | nil => exact absurd hb (splitNl_ne_nil b)
          | cons y ys => simp [mergeHd, lastSeg]
        | cons q qs =>
          simp [mergeHd, lastSeg_cons_cons, List.dropLast_cons₂]

/-- Observable equality of transform states: equal cores, and equal line
buffers unless the stream has errored (an errored stream never reads its
line buffer again). -/
def sseObsEq (s1 s2 : SseState) : Prop :=
  s1.core = s2.core ∧ (s1.core.errored = none → s1.lineBuffer = s2.lineBuffer)

theorem sseObsEq_refl (s : SseState) : sseObsEq s s := ⟨rfl, fun _ => rfl⟩

theorem sseObsEq_trans {s1 s2 s3 : SseState} (h1 : sseObsEq s1 s2)
    (h2 : sseObsEq s2 s3) : sseObsEq s1 s3 :=
  ⟨h1.1.trans h2.1, fun he => (h1.2 he).trans (h2.2 (h1.1 ▸ he))⟩

theorem processLine_errored (now : Int) (c : SseCore) (l : List Char)
    (h : c.errored.isSome = true) : processLine now c l = c := by
  unfold processLine
  rw [if_pos h]

theorem foldl_processLine_errored (now : Int) (c : SseCore)
    (L : List (List Char)) (h : c.errored.isSome = true) :
    L.foldl (processLine now) c = c := by
  induction L with
  | nil => rfl
  | cons l t ih => rw [List.foldl_cons, processLine_errored now c l h, ih]

theorem feed_append (now : Int) (st : SseState) (a b : List Char) :
    sseObsEq (feed now (feed now st a) b) (feed now st (a ++ b)) := by
  by_cases herr : st.core.errored.isSome = true
  · unfold feed
    rw [if_pos herr, if_pos herr, if_pos herr]
    exact sseObsEq_refl st
  · have hq := splitNl_ne_nil b
    cases hqb : splitNl b with
    | nil => exact absurd hqb hq
    | cons q qt =>
      have hsplit : splitNl (st.lineBuffer ++ (a ++ b)) =
          (splitNl (st.lineBuffer ++ a)).dropLast ++
            ((lastSeg (splitNl (st.lineBuffer ++ a)) ++ q) :: qt) := by
        rw [← List.append_assoc, splitNl_append (st.lineBuffer ++ a) b,
          hqb]
        rfl
      have hBnl : '\n' ∉ lastSeg (splitNl (st.lineBuffer ++ a)) :=
        splitNl_last_no_nl _
      have hsplit2 : splitNl (lastSeg (splitNl (st.lineBuffer ++ a)) ++ b) =
          (lastSeg (splitNl (st.lineBuffer ++ a)) ++ q) :: qt := by
        rw [splitNl_append _ b, splitNl_no_nl _ hBnl, hqb]
        rfl
      show sseObsEq (feed now (feed now st a) b) _
      rw [show feed now st a =
          ⟨(splitNl (st.lineBuffer ++ a)).dropLast.foldl (processLine now)
            st.core, lastSeg (splitNl (st.lineBuffer ++ a))⟩ from by
        unfold feed
        rw [if_neg herr]]
      by_cases herr2 : ((splitNl (st.lineBuffer ++ a)).dropLast.foldl
          (processLine now) st.core).errored.isSome = true
      · unfold feed
        rw [if_pos herr2, if_neg herr]
        refine ⟨?_, ?_⟩
        · show _ = (splitNl (st.lineBuffer ++ (a ++ b))).dropLast.foldl
            (processLine now) st.core
          rw [hsplit, dropLast_append_ne_nil _ _ (by simp),
            List.foldl_append]
          exact (foldl_processLine_errored now _ _ herr2).symm
        · intro he
          exact absurd (he ▸ herr2) (by simp)
      · unfold feed
        rw [if_neg herr2, if_neg herr]
        refine ⟨?_, ?_⟩
        · show _ = (splitNl (st.lineBuffer ++ (a ++ b))).dropLast.foldl
            (processLine now) st.core
          rw [hsplit, dropLast_append_ne_nil _ _ (by simp),
            List.foldl_append, hsplit2]
        · intro _
          show lastSeg (splitNl (lastSeg (splitNl (st.lineBuffer ++ a)) ++
            b)) = lastSeg (splitNl (st.lineBuffer ++ (a ++ b)))
          rw [hsplit2, hsplit, lastSeg_append _ _ (by simp)]

theorem feed_lineBuffer_no_nl (now : Int) (st : SseState) (ch : List Char)
    (h : '\n' ∉ st.lineBuffer) : '\n' ∉ (feed now st ch).lineBuffer := by
  unfold feed
  split
  · exact h
  · exact splitNl_last_no_nl _

theorem feed_nil (now : Int) (st : SseState) (h : '\n' ∉ st.lineBuffer) :
    feed now st [] = st := by
  unfold feed
  split
  · rfl
  · rw [List.append_nil, splitNl_no_nl _ h]
    rfl

theorem feed_singletons (now : Int) :
    ∀ (s : List Char) (st : SseState), '\n' ∉ st.lineBuffer →
    sseObsEq ((s.map (fun ch => [ch])).foldl (feed now) st)
      (feed now st s) := by
  intro s
  induction s with
  | nil =>
    intro st h
    rw [show (([] : List Char).map (fun ch => [ch])).foldl (feed now) st =
      st from rfl, feed_nil now st h]
    exact sseObsEq_refl st
  | cons c t ih =>
    intro st h
    rw [List.map_cons, List.foldl_cons]
    exact sseObsEq_trans (ih (feed now st [c])
        (feed_lineBuffer_no_nl now st [c] h))
      (feed_append now st [c] t)

theorem flushSse_output_congr (now : Int) (s1 s2 : SseState)
    (h : sseObsEq s1 s2) :
    (flushSse now s1).core.output = (flushSse now s2).core.output := by
  obtain ⟨hc, hlb⟩ := h
  by_cases herr : s1.core.errored.isSome = true
  · unfold flushSse
    rw [if_pos herr, if_pos (hc ▸ herr)]
    rw [hc]
  · have he : s1.core.errored = none := by
      cases hx : s1.core.errored with
      | none => rfl
      | some e => rw [hx] at herr; exact absurd rfl herr
    have : s1 = s2 := by
      cases s1; cases s2
      simp only at hc hlb
      simp [hc, hlb he]
    rw [this]

/-! ### C3: event ordering and per-event byte fidelity

`emitSseEvent` re-frames every forwarded event as
`event: T\ndata: D\n\n`, so only canonically framed input events can come
out byte-for-byte.  The counterexample below feeds a differently framed
event (`event:ping` without the space); the amended theorem works over
canonically framed streams. -/

/-- The last character (`d` for the empty list). -/
def lastCh : List Char → Char → Char
  | [], d => d
  | c :: t, _ => lastCh t c

/-- Nonempty with non-whitespace first and last characters. -/
def noEdgeWs : List Char → Bool
  | [] => false
  | c :: t => !jsWs c && !jsWs (lastCh t c)

/-- An event whose canonical framing survives the transform's line
parser unchanged: nonempty newline-free type and data without leading or
trailing whitespace. -/
def canonicalEvent (T D : List Char) : Bool :=
  noEdgeWs T && noEdgeWs D &&
    T.all (fun ch => ch ≠ '\n') && D.all (fun ch => ch ≠ '\n')

/-- A list of events, canonically framed and concatenated. -/
def joinFrames : List (List Char × List Char) → List Char
  | [] => []
  | e :: es => sseFrame e.1 e.2 ++ joinFrames es

/-- The lines the splitter produces for a canonically framed stream
(each event contributes its two field lines and a blank line). -/
def linesOf : List (List Char × List Char) → List (List Char)
  | [] => []
  | e :: es =>
    ("event: ".data ++ e.1) :: ("data: ".data ++ e.2) :: [] :: linesOf es

/-- What one complete canonically framed event does to the core: set the
pending fields, fire `processEvent`, reset the fields (unless the event
errored the stream). -/
def feedEvent (now : Int) (c : SseCore) (e : List Char × List Char) :
    SseCore :=
  if c.errored.isSome then c
  else if (processEvent now e.1 e.2
      {c with currentEventType := e.1, currentData := e.2}).errored.isSome
    then
    processEvent now e.1 e.2
      {c with currentEventType := e.1, currentData := e.2}
  else
    {processEvent now e.1 e.2
        {c with currentEventType := e.1, currentData := e.2} with
      currentEventType := [], currentData := []}

/-- The event is an `input_json_delta` of a currently tracked block — the
one kind of event the transform suppresses (buffering it for the
replacement delta). -/
def isTrackedDelta (c : SseCore) (T D : List Char) : Bool :=
  decide (T = "content_block_delta".data) &&
    (match parseJson D with
     | some data =>
       (match Json.getField? data "delta" with
        | some d =>
          if Json.getField? d "type" = some (Json.str "input_json_delta")
          then (mapGet c.trackedBlocks (Json.getField? data "index")).isSome
          else false
        | none => false)
     | none => false)

/-- The event is the `content_block_stop` of a currently tracked block
(the transform inserts the replacement delta just before re-emitting
it). -/
def isTrackedStop (c : SseCore) (T D : List Char) : Bool :=
  decide (T = "content_block_stop".data) &&
    (match parseJson D with
     | some data =>
       (mapGet c.trackedBlocks (Json.getField? data "index")).isSome
     | none => false)

/-- C3 counterexample: a non-tracked event framed as
`event:ping\ndata:1\n\n` (no space after the colons) is re-emitted as
`event: ping\ndata: 1\n\n` — the transform does not preserve arbitrary
non-tracked events byte-for-byte, it re-frames them canonically. -/
theorem sse_passthrough_not_byte_identical :
    (runSse 0 ["event:ping\ndata:1\n\n".data]).core.output =
      "event: ping\ndata: 1\n\n".data ∧
    (runSse 0 ["event:ping\ndata:1\n\n".data]).core.trackedBlocks = [] ∧
    (runSse 0 ["event:ping\ndata:1\n\n".data]).core.output ≠
      "event:ping\ndata:1\n\n".data := by
  refine ⟨by decide, by decide, by decide⟩

theorem lastCh_snoc (l : List Char) (y d : Char) :
    lastCh (l ++ [y]) d = y := by
  induction l generalizing d with
  | nil => rfl
  | cons a t ih => exact ih a

theorem lastCh_append_cons (l1 : List Char) (c : Char) (t : List Char)
    (d : Char) : lastCh (l1 ++ c :: t) d = lastCh t c := by
  induction l1 generalizing d with
  | nil => rfl
  | cons a t1 ih => exact ih a

theorem dropWhile_jsWs_cons (l : List Char) (c : Char)
    (h : jsWs c = false) : List.dropWhile jsWs (c :: l) = c :: l := by
  simp [List.dropWhile_cons, h]

theorem noEdgeWs_ne_nil (l : List Char) (h : noEdgeWs l = true) :
    l ≠ [] := by
  cases l with
  | nil => exact absurd h (by decide)
  | cons c t => simp

theorem jsTrim_noEdgeWs (l : List Char) (h : noEdgeWs l = true) :
    jsTrim l = l := by
  cases l with
  | nil => exact absurd h (by decide)
  | cons c t =>
    simp only [noEdgeWs, Bool.and_eq_true, Bool.not_eq_true'] at h
    obtain ⟨h1, h2⟩ := h
    rcases List.eq_nil_or_concat (c :: t) with hne | ⟨ys, y, hys⟩
    · exact absurd hne (by simp)
    · rw [List.concat_eq_append] at hys
      have hy : jsWs y = false := by
        have he : lastCh (c :: t) c = lastCh (ys ++ [y]) c := by rw [hys]
        rw [lastCh_snoc] at he
        show jsWs y = false
        rw [← he]
        exact h2
      unfold jsTrim trimL
      rw [dropWhile_jsWs_cons t c h1, hys, List.reverse_append]
      simp only [List.reverse_singleton, List.singleton_append]
      rw [dropWhile_jsWs_cons _ y hy]
      simp [hys]

theorem canonicalEvent_spec (T D : List Char)
    (h : canonicalEvent T D = true) :
    noEdgeWs T = true ∧ noEdgeWs D = true ∧ '\n' ∉ T ∧ '\n' ∉ D := by
  simp only [canonicalEvent, Bool.and_eq_true, List.all_eq_true] at h
  obtain ⟨⟨⟨h1, h2⟩, h3⟩, h4⟩ := h
  refine ⟨h1, h2, fun hm => ?_, fun hm => ?_⟩
  · have h5 := h3 _ hm
    simp at h5
  · have h5 := h4 _ hm
    simp at h5

theorem splitNl_noNl_cons (l X : List Char) (h : '\n' ∉ l) :
    splitNl (l ++ '\n' :: X) = l :: splitNl X := by
  rw [splitNl_append, splitNl_no_nl l h,
    show splitNl ('\n' :: X) = [] :: splitNl X from by simp [splitNl]]
  simp [lastSeg, mergeHd]

theorem splitNl_joinFrames (events : List (List Char × List Char))
    (h : ∀ e ∈ events, canonicalEvent e.1 e.2 = true) :
    splitNl (joinFrames events) = linesOf events ++ [[]] := by
  induction events with
  | nil => rfl
  | cons e es ih =>
    obtain ⟨hT, hD, hTn, hDn⟩ :=
      canonicalEvent_spec e.1 e.2 (h e (List.mem_cons_self e es))
    have hline1 : '\n' ∉ "event: ".data ++ e.1 := by
      intro hm
      rcases List.mem_append.mp hm with h1 | h2
      · simp at h1
      · exact hTn h2
    have hline2 : '\n' ∉ "data: ".data ++ e.2 := by
      intro hm
      rcases List.mem_append.mp hm with h1 | h2
      · simp at h1
      · exact hDn h2
    rw [show joinFrames (e :: es) = ("event: ".data ++ e.1) ++ '\n' ::
        (("data: ".data ++ e.2) ++ '\n' :: '\n' :: joinFrames es) from by
      simp [joinFrames, sseFrame]]
    rw [splitNl_noNl_cons _ _ hline1, splitNl_noNl_cons _ _ hline2,
      show splitNl ('\n' :: joinFrames es) = [] :: splitNl (joinFrames es)
        from by simp [splitNl],
      ih (fun e2 he2 => h e2 (List.mem_cons_of_mem e he2))]
    rfl

theorem processLine_eventLine (now : Int) (c : SseCore) (T : List Char)
    (hT : noEdgeWs T = true) (herr : c.errored.isSome = false) :
    processLine now c ("event: ".data ++ T) =
      {c with currentEventType := T} := by
  obtain ⟨c0, t0, rfl⟩ : ∃ c0 t0, T = c0 :: t0 := by
    cases T with
    | nil => exact absurd hT (by decide)
    | cons c0 t0 => exact ⟨c0, t0, rfl⟩
  have hlast : jsWs (lastCh t0 c0) = false := by
    simp only [noEdgeWs, Bool.and_eq_true, Bool.not_eq_true'] at hT
    exact hT.2
  have hedge : noEdgeWs ("event: ".data ++ c0 :: t0) = true := by
    show noEdgeWs ('e' :: ("vent: ".data ++ c0 :: t0)) = true
    simp only [noEdgeWs, lastCh_append_cons, hlast]
    decide
  have htrim := jsTrim_noEdgeWs _ hedge
  have hc0 : jsWs c0 = false := by
    simp only [noEdgeWs, Bool.and_eq_true, Bool.not_eq_true'] at hT
    exact hT.1
  unfold processLine
  rw [if_neg (by simp [herr])]
  rw [htrim]
  rw [show ((("event: ".data ++ c0 :: t0) : List Char)) =
    'e' :: ("vent: ".data ++ c0 :: t0) from rfl]
  simp only []
  rw [if_pos ?hcond]
  case hcond =>
    constructor
    · show listStartsWith ('e' :: 'v' :: 'e' :: 'n' :: 't' :: ':' :: ' ' ::
        c0 :: t0) "event:".data = true
      show ('e' == 'e') && (('v' == 'v') && (('e' == 'e') &&
        (('n' == 'n') && (('t' == 't') && ((':' == ':') &&
          listStartsWith (' ' :: c0 :: t0) []))))) = true
      simp [listStartsWith]
    · show trimL (List.drop 6 ('e' :: 'v' :: 'e' :: 'n' :: 't' :: ':' ::
        ' ' :: c0 :: t0)) ≠ []
      show trimL (' ' :: c0 :: t0) ≠ []
      unfold trimL
      rw [show List.dropWhile jsWs (' ' :: c0 :: t0) =
        List.dropWhile jsWs (c0 :: t0) from by simp [List.dropWhile_cons,
          jsWs],
        dropWhile_jsWs_cons t0 c0 hc0]
      simp
  show ({c with currentEventType := jsTrim (trimL (List.drop 6
    ('e' :: 'v' :: 'e' :: 'n' :: 't' :: ':' :: ' ' :: c0 :: t0)))} :
      SseCore) = _
  rw [show List.drop 6 ('e' :: 'v' :: 'e' :: 'n' :: 't' :: ':' :: ' ' ::
    c0 :: t0) = ' ' :: c0 :: t0 from rfl]
  rw [show trimL (' ' :: c0 :: t0) = c0 :: t0 from by
    unfold trimL
    rw [show List.dropWhile jsWs (' ' :: c0 :: t0) =
      List.dropWhile jsWs (c0 :: t0) from by simp [List.dropWhile_cons,
        jsWs],
      dropWhile_jsWs_cons t0 c0 hc0]]
  rw [jsTrim_noEdgeWs _ hT]

theorem processLine_dataLine (now : Int) (c : SseCore) (D : List Char)
    (hD : noEdgeWs D = true) (herr : c.errored.isSome = false) :
    processLine now c ("data: ".data ++ D) =
      {c with currentData := D} := by
  obtain ⟨c0, t0, rfl⟩ : ∃ c0 t0, D = c0 :: t0 := by
    cases D with
    | nil => exact absurd hD (by decide)
    | cons c0 t0 => exact ⟨c0, t0, rfl⟩
  have hlast : jsWs (lastCh t0 c0) = false := by
    simp only [noEdgeWs, Bool.and_eq_true, Bool.not_eq_true'] at hD
    exact hD.2
  have hedge : noEdgeWs ("data: ".data ++ c0 :: t0) = true := by
    show noEdgeWs ('d' :: ("ata: ".data ++ c0 :: t0)) = true
    simp only [noEdgeWs, lastCh_append_cons, hlast]
    decide
  have htrim := jsTrim_noEdgeWs _ hedge
  have hc0 : jsWs c0 = false := by
    simp only [noEdgeWs, Bool.and_eq_true, Bool.not_eq_true'] at hD
    exact hD.1
  have htl : trimL (' ' :: c0 :: t0) = c0 :: t0 := by
    unfold trimL
    rw [show List.dropWhile jsWs (' ' :: c0 :: t0) =
      List.dropWhile jsWs (c0 :: t0) from by simp [List.dropWhile_cons,
        jsWs],
      dropWhile_jsWs_cons t0 c0 hc0]
  unfold processLine
  rw [if_neg (by simp [herr])]
  rw [htrim]
  rw [show ((("data: ".data ++ c0 :: t0) : List Char)) =
    'd' :: ("ata: ".data ++ c0 :: t0) from rfl]
  simp only []
  rw [if_neg ?hev]
  case hev =>
    intro hand
    have h1 := hand.1
    rw [show listStartsWith ('d' :: ("ata: ".data ++ c0 :: t0))
      "event:".data = (('d' == 'e') && listStartsWith ("ata: ".data ++
        c0 :: t0) "vent:".data) from rfl] at h1
    simp at h1
  rw [if_pos ?hdat]
  case hdat =>
    constructor
    · show listStartsWith ('d' :: 'a' :: 't' :: 'a' :: ':' :: ' ' ::
        c0 :: t0) "data:".data = true
      show ('d' == 'd') && (('a' == 'a') && (('t' == 't') &&
        (('a' == 'a') && ((':' == ':') &&
          listStartsWith (' ' :: c0 :: t0) [])))) = true
      simp [listStartsWith]
    · show trimL (List.drop 5 ('d' :: 'a' :: 't' :: 'a' :: ':' :: ' ' ::
        c0 :: t0)) ≠ []
      show trimL (' ' :: c0 :: t0) ≠ []
      rw [htl]
      simp
  show ({c with currentData := trimL (List.drop 5
    ('d' :: 'a' :: 't' :: 'a' :: ':' :: ' ' :: c0 :: t0))} : SseCore) = _
  rw [show List.drop 5 ('d' :: 'a' :: 't' :: 'a' :: ':' :: ' ' ::
    c0 :: t0) = ' ' :: c0 :: t0 from rfl]
  rw [htl]

theorem processLine_blank (now : Int) (c : SseCore) (T D : List Char)
    (herr : c.errored.isSome = false) (hce : c.currentEventType = T)
    (hcd : c.currentData = D) (h1 : T ≠ []) (h2 : D ≠ []) :
    processLine now c [] =
      (if (processEvent now T D c).errored.isSome
       then processEvent now T D c
       else {processEvent now T D c with currentEventType := [], currentData := []}) := by
  subst hce
  subst hcd
  unfold processLine
  rw [if_neg (by simp [herr])]
  show (if c.currentEventType ≠ [] ∧ c.currentData ≠ [] then _ else _) = _
  rw [if_pos ⟨h1, h2⟩]

theorem feedEvent_not_errored (now : Int) (c : SseCore)
    (e : List Char × List Char) (herr : c.errored.isSome = false) :
    feedEvent now c e =
      (if (processEvent now e.1 e.2 {c with currentEventType := e.1, currentData := e.2}).errored.isSome
       then processEvent now e.1 e.2 {c with currentEventType := e.1, currentData := e.2}
       else {processEvent now e.1 e.2 {c with currentEventType := e.1, currentData := e.2} with currentEventType := [], currentData := []}) := by
  unfold feedEvent
  rw [if_neg (by simp [herr])]

theorem foldl_feedEvent_errored (now : Int) (c : SseCore)
    (events : List (List Char × List Char))
    (h : c.errored.isSome = true) :
    events.foldl (feedEvent now) c = c := by
  induction events with
  | nil => rfl
  | cons e es ih =>
    rw [List.foldl_cons, show feedEvent now c e = c from by
      unfold feedEvent
      rw [if_pos h], ih]

theorem foldl_linesOf (now : Int) :
    ∀ (events : List (List Char × List Char)) (c : SseCore),
    (∀ e ∈ events, canonicalEvent e.1 e.2 = true) →
    (linesOf events).foldl (processLine now) c =
      events.foldl (feedEvent now) c := by
  intro events
  induction events with
  | nil => intro c h; rfl
  | cons e es ih =>
    intro c h
    obtain ⟨hT, hD, -, -⟩ :=
      canonicalEvent_spec e.1 e.2 (h e (List.mem_cons_self e es))
    by_cases herr : c.errored.isSome = true
    · rw [show linesOf (e :: es) = ("event: ".data ++ e.1) ::
        ("data: ".data ++ e.2) :: [] :: linesOf es from rfl]
      rw [List.foldl_cons, processLine_errored now c _ herr,
        List.foldl_cons, processLine_errored now c _ herr,
        List.foldl_cons, processLine_errored now c _ herr,
        foldl_processLine_errored now c _ herr]
      rw [List.foldl_cons, show feedEvent now c e = c from by
        unfold feedEvent
        rw [if_pos herr], foldl_feedEvent_errored now c es herr]
    · have herr' : c.errored.isSome = false := by
        cases hx : c.errored.isSome
        · rfl
        · exact absurd hx herr
      rw [show linesOf (e :: es) = ("event: ".data ++ e.1) ::
        ("data: ".data ++ e.2) :: [] :: linesOf es from rfl]
      rw [List.foldl_cons, processLine_eventLine now c e.1 hT herr']
      rw [List.foldl_cons, processLine_dataLine now
        {c with currentEventType := e.1} e.2 hD herr']
      rw [List.foldl_cons, processLine_blank now
        {c with currentEventType := e.1, currentData := e.2} e.1 e.2 herr'
        rfl rfl (noEdgeWs_ne_nil e.1 hT) (noEdgeWs_ne_nil e.2 hD)]
      rw [show List.foldl (feedEvent now) c (e :: es) =
        List.foldl (feedEvent now) (feedEvent now c e) es from rfl,
        feedEvent_not_errored now c e herr']
      exact ih _ (fun e2 he2 => h e2 (List.mem_cons_of_mem e he2))

theorem feed_joinFrames (now : Int)
    (events : List (List Char × List Char))
    (h : ∀ e ∈ events, canonicalEvent e.1 e.2 = true) :
    feed now initSseState (joinFrames events) =
      ⟨events.foldl (feedEvent now) initSseCore, []⟩ := by
  unfold feed
  rw [if_neg (by simp [initSseState, initSseCore])]
  rw [show initSseState.lineBuffer ++ joinFrames events =
    joinFrames events from by simp [initSseState]]
  rw [splitNl_joinFrames events h]
  rw [dropLast_append_ne_nil _ _ (by simp), lastSeg_append _ _ (by simp)]
  simp only [List.dropLast_single, List.append_nil]
  rw [show initSseState.core = initSseCore from rfl]
  rw [foldl_linesOf now events initSseCore h]
  rfl

/-- The bytes the transform inserts for a tracked block when it is
closed (at `content_block_stop` or at flush): nothing for an empty
buffer, otherwise the frame of the single synthetic `input_json_delta` —
carrying the cleaned JSON, or the raw buffer when it does not parse or
parses to `null` (the caught `TypeError` path). -/
def syntheticDeltaBytes (block : TrackedToolBlock) (idx : Option Json) :
    List Char :=
  if block.bufferedJson = [] then []
  else
    match parseJson block.bufferedJson with
    | some parsed =>
      if parsed = Json.null then
        sseFrame "content_block_delta".data
          (stringify (deltaEventJson idx block.bufferedJson))
      else
        sseFrame "content_block_delta".data
          (stringify (deltaEventJson idx
            (stringify (deleteMetaFields parsed))))
    | none =>
      sseFrame "content_block_delta".data
        (stringify (deltaEventJson idx block.bufferedJson))

theorem emitBufferedBlock_output (now : Int) (b : TrackedToolBlock)
    (idx : Option Json) (s : SseCore) :
    (emitBufferedBlock now b idx s).output =
      s.output ++ syntheticDeltaBytes b idx := by
  unfold emitBufferedBlock syntheticDeltaBytes
  split
  · simp
  · split
    · split
      · simp [emitSseEvent]
      · split <;> simp [emitSseEvent]
    · simp [emitSseEvent]

theorem emitBufferedBlock_errored (now : Int) (b : TrackedToolBlock)
    (idx : Option Json) (s : SseCore) :
    (emitBufferedBlock now b idx s).errored = s.errored := by
  unfold emitBufferedBlock
  split
  · rfl
  · split
    · split
      · simp [emitSseEvent]
      · split <;> simp [emitSseEvent]
    · simp [emitSseEvent]

/-- The one way an event can error the stream: a JSON payload of exactly
`null` under one of the three `content_block_*` types makes
`processEvent` read a property of `null` outside any `try`. -/
def crashesStream (T D : List Char) : Bool :=
  decide (parseJson D = some Json.null) &&
    (decide (T = "content_block_start".data) ||
     decide (T = "content_block_delta".data) ||
     decide (T = "content_block_stop".data))

theorem processEvent_passthrough (now : Int) (c : SseCore)
    (T D : List Char) (hnd : isTrackedDelta c T D = false)
    (hns : isTrackedStop c T D = false)
    (hcr : crashesStream T D = false) :
    (processEvent now T D c).output = c.output ++ sseFrame T D := by
  have hDS : ¬("content_block_delta".data =
    "content_block_start".data) := by decide
  have hPS : ¬("content_block_stop".data =
    "content_block_start".data) := by decide
  have hPD : ¬("content_block_stop".data =
    "content_block_delta".data) := by decide
  cases hp : parseJson D with
  | none =>
    simp [processEvent, hp, emitSseEvent]
  | some data =>
    by_cases hT1 : T = "content_block_start".data
    · subst hT1
      by_cases hnull : data = Json.null
      · exfalso
        rw [hnull] at hp
        unfold crashesStream at hcr
        simp [hp] at hcr
      · unfold processEvent
        rw [hp]
        simp only [if_pos rfl, if_neg hnull]
        cases hd : detectToolUse data with
        | none => simp [emitSseEvent]
        | some pr =>
          obtain ⟨idv, nv⟩ := pr
          simp [emitSseEvent]
    · by_cases hT2 : T = "content_block_delta".data
      · subst hT2
        by_cases hnull : data = Json.null
        · exfalso
          rw [hnull] at hp
          unfold crashesStream at hcr
          simp [hp] at hcr
        · cases hdelta : Json.getField? data "delta" with
          | none =>
            unfold processEvent
            rw [hp]
            simp only [if_neg hDS, if_pos rfl, if_neg hnull, hdelta]
            simp [emitSseEvent]
          | some d =>
            by_cases hdt : Json.getField? d "type" =
                some (Json.str "input_json_delta")
            · cases hmg : mapGet c.trackedBlocks
                (Json.getField? data "index") with
              | some block =>
                exfalso
                have hd2 : isTrackedDelta c "content_block_delta".data D =
                    true := by
                  unfold isTrackedDelta
                  rw [hp]
                  simp only [hdelta, if_pos hdt, hmg]
                  simp
                rw [hd2] at hnd
                exact absurd hnd (by simp)
              | none =>
                unfold processEvent
                rw [hp]
                simp only [if_neg hDS, if_pos rfl, if_neg hnull, hdelta,
                  if_pos hdt, hmg]
                simp [emitSseEvent]
            · unfold processEvent
              rw [hp]
              simp only [if_neg hDS, if_pos rfl, if_neg hnull, hdelta,
                if_neg hdt]
              simp [emitSseEvent]
      · by_cases hT3 : T = "content_block_stop".data
        · subst hT3
          by_cases hnull : data = Json.null
          · exfalso
            rw [hnull] at hp
            unfold crashesStream at hcr
            simp [hp] at hcr
          · cases hmg : mapGet c.trackedBlocks
                (Json.getField? data "index") with
            | none =>
              unfold processEvent
              rw [hp]
              simp only [if_neg hPS, if_neg hPD, if_pos rfl, if_neg hnull,
                hmg]
              simp [emitSseEvent]
            | some block =>
              exfalso
              have hstop : isTrackedStop c "content_block_stop".data D =
                  true := by
                unfold isTrackedStop
                rw [hp]
                simp only [hmg]
                simp
              rw [hstop] at hns
              exact absurd hns (by simp)
        · unfold processEvent
          rw [hp]
          simp only [if_neg hT1, if_neg hT2, if_neg hT3]
          simp [emitSseEvent]

theorem processEvent_tracked_stop (now : Int) (c : SseCore)
    (D : List Char) (data : Json) (block : TrackedToolBlock)
    (herr : c.errored = none) (hD : parseJson D = some data)
    (hnn : data ≠ Json.null)
    (hblk : mapGet c.trackedBlocks (Json.getField? data "index") =
      some block) :
    (processEvent now "content_block_stop".data D c).output =
      c.output ++
        syntheticDeltaBytes block (Json.getField? data "index") ++
        sseFrame "content_block_stop".data D := by
  have hcc : (emitBufferedBlock now block (Json.getField? data "index")
      {c with
        eventCount := c.eventCount + 1,
        trackedBlocks := (mapDelete c.trackedBlocks
          (Json.getField? data "index"))}).errored.isSome = false := by
    rw [emitBufferedBlock_errored]
    simp [herr]
  have hcc2 : ¬((emitBufferedBlock now block (Json.getField? data "index")
      {c with
        eventCount := c.eventCount + 1,
        trackedBlocks := (mapDelete c.trackedBlocks
          (Json.getField? data "index"))}).errored.isSome = true) := by
    rw [hcc]
    simp
  unfold processEvent
  rw [hD]
  simp only [if_true, hblk, if_neg hnn]
  rw [if_neg hcc2]
  simp only [emitSseEvent]
  rw [emitBufferedBlock_output]
  simp

/-- C3 (amended): over canonically framed SSE streams
(`event: T\ndata: D\n\n` per event) the transform preserves event
ordering — feeding the concatenated frames equals folding the per-event
step over the event list in order.  Except for the degenerate events
whose JSON payload is exactly `null` under a `content_block_*` type
(which error the whole stream on an unguarded property access), every
event that is neither a suppressed tracked `input_json_delta` nor a
tracked `content_block_stop` appends exactly its own frame bytes to the
output, and a tracked `content_block_stop` appends exactly the block's
replacement bytes — the frame of the single synthetic delta, empty for
an empty buffer — followed byte-for-byte by the stop's own frame.
Arbitrary framings are normalised, not preserved byte-for-byte. -/
theorem sse_event_order_and_passthrough (now : Int) :
    (∀ (events : List (List Char × List Char)),
      (∀ e ∈ events, canonicalEvent e.1 e.2 = true) →
      feed now initSseState (joinFrames events) =
        ⟨events.foldl (feedEvent now) initSseCore, []⟩) ∧
    (∀ (c : SseCore) (T D : List Char),
      isTrackedDelta c T D = false → isTrackedStop c T D = false →
      crashesStream T D = false →
      (processEvent now T D c).output = c.output ++ sseFrame T D) ∧
    (∀ (c : SseCore) (D : List Char) (data : Json)
      (block : TrackedToolBlock),
      c.errored = none → parseJson D = some data → data ≠ Json.null →
      mapGet c.trackedBlocks (Json.getField? data "index") = some block →
      (processEvent now "content_block_stop".data D c).output =
        c.output ++
          syntheticDeltaBytes block (Json.getField? data "index") ++
          sseFrame "content_block_stop".data D) :=
  ⟨fun events h => feed_joinFrames now events h,
   fun c T D hnd hns hcr => processEvent_passthrough now c T D hnd hns hcr,
   fun c D data block herr hD hnn hblk =>
     processEvent_tracked_stop now c D data block herr hD hnn hblk⟩

/-- Closed instance of the C3 amended theorem: a two-event canonical
stream is processed in order; a non-tracked `ping` event appends exactly
its frame; and a tracked block with buffer `\x7b"a":1\x7d` closed by its
`content_block_stop` appends exactly its replacement delta followed by
the stop frame. -/
theorem sse_event_order_and_passthrough_witness :
    feed 0 initSseState (joinFrames
      [("ping".data, "1".data), ("message_stop".data, "\x7b\x7d".data)]) =
      ⟨[(("ping".data : List Char), ("1".data : List Char)),
        ("message_stop".data, "\x7b\x7d".data)].foldl (feedEvent 0)
          initSseCore, []⟩ ∧
    (processEvent 0 "ping".data "1".data initSseCore).output =
      initSseCore.output ++ sseFrame "ping".data "1".data ∧
    (processEvent 0 "content_block_stop".data c1StopData.data
        {initSseCore with trackedBlocks := [(some (Json.num 0),
          ⟨Json.str "toolu_01", Json.str "mcp__x", some (Json.num 0),
            "\x7b\"a\":1\x7d".data⟩)]}).output =
      ({initSseCore with trackedBlocks := [(some (Json.num 0),
          (⟨Json.str "toolu_01", Json.str "mcp__x", some (Json.num 0),
            "\x7b\"a\":1\x7d".data⟩ : TrackedToolBlock))]} :
        SseCore).output ++
        syntheticDeltaBytes
          ⟨Json.str "toolu_01", Json.str "mcp__x", some (Json.num 0),
            "\x7b\"a\":1\x7d".data⟩
          (Json.getField? (Json.obj [("type",
            Json.str "content_block_stop"), ("index", Json.num 0)])
            "index") ++
        sseFrame "content_block_stop".data c1StopData.data :=
  ⟨(sse_event_order_and_passthrough 0).1
    [("ping".data, "1".data), ("message_stop".data, "\x7b\x7d".data)]
    (by decide),
   (sse_event_order_and_passthrough 0).2.1 initSseCore "ping".data
    "1".data (by decide) (by decide) (by decide),
   (sse_event_order_and_passthrough 0).2.2
    {initSseCore with trackedBlocks := [(some (Json.num 0),
      ⟨Json.str "toolu_01", Json.str "mcp__x", some (Json.num 0),
        "\x7b\"a\":1\x7d".data⟩)]}
    c1StopData.data
    (Json.obj [("type", Json.str "content_block_stop"),
      ("index", Json.num 0)])
    ⟨Json.str "toolu_01", Json.str "mcp__x", some (Json.num 0),
      "\x7b\"a\":1\x7d".data⟩
    rfl (by decide) (by decide) (by decide)⟩

set_option maxHeartbeats 1000000 in
/-- C2: feeding the transform a stream one character at a time produces
exactly the same output bytes as feeding it the whole stream as a single
chunk (for every input, well-formed or not). -/
theorem sse_chunking_invariant (now : Int) (input : List Char) :
    (runSse now (input.map (fun ch => [ch]))).core.output =
      (runSse now [input]).core.output := by
  unfold runSse
  apply flushSse_output_congr
  have h1 := feed_singletons now input initSseState (by simp [initSseState])
  have h2 : ([input] : List (List Char)).foldl (feed now) initSseState =
      feed now initSseState input := rfl
  rw [h2]
  exact h1

end Craft
